import Mathlib

/-!
Verification of the sorted-ranges library: a SortedRangeMap keeping a
disjoint, sorted, minimal list of inclusive integer ranges each associated
with a value, and a SortedRangeSet delegating to such a map with a constant
placeholder value.

The definitions below are a shallow embedding of the implementation:
JavaScript numbers holding integer keys become Int, the entry array becomes
a list, array splices become take/drop surgery, and the TypeError thrown by
assertRange becomes an Option-valued public API (none = the error).
-/

namespace SortedRanges

/-- An inclusive integer range, as in the source: a pair of start and end. -/
abbrev SRange := Int × Int

/-- A map entry: a range together with its value. -/
abbrev REntry (V : Type) := SRange × V

/-- JavaScript bitwise complement on integers: ~n = -(n + 1). -/
def jsNot (n : Int) : Int := -(n + 1)

/-- Number.isSafeInteger for an integer argument: magnitude at most 2^53 - 1. -/
def isSafeInteger (n : Int) : Bool := n.natAbs ≤ 2 ^ 53 - 1

/-- The validity predicate enforced by assertRange in the source: both
endpoints are safe integers and start does not exceed end. -/
def ValidRange (r : SRange) : Prop :=
  r.1.natAbs ≤ 2 ^ 53 - 1 ∧ r.2.natAbs ≤ 2 ^ 53 - 1 ∧ r.1 ≤ r.2

instance : DecidablePred ValidRange := fun r =>
  inferInstanceAs (Decidable (r.1.natAbs ≤ 2 ^ 53 - 1 ∧ r.2.natAbs ≤ 2 ^ 53 - 1 ∧
    r.1 ≤ r.2))

/-- assertRange from the source: the check guarding every range-accepting
entry point. Returns true when the range is acceptable (the source throws a
TypeError otherwise). -/
def assertRange (r : SRange) : Bool :=
  isSafeInteger r.1 && isSafeInteger r.2 && decide (r.1 ≤ r.2)

/-- A range covers a key when the key lies within its inclusive bounds. -/
def covers (r : SRange) (k : Int) : Prop := r.1 ≤ k ∧ k ≤ r.2

instance : ∀ r k, Decidable (covers r k) := fun r k =>
  inferInstanceAs (Decidable (r.1 ≤ k ∧ k ≤ r.2))

/-- Two ranges intersect when they share at least one integer key (for
well-formed ranges). -/
def intersects (a b : SRange) : Prop := a.1 ≤ b.2 ∧ b.1 ≤ a.2

instance : ∀ a b, Decidable (intersects a b) := fun a b =>
  inferInstanceAs (Decidable (a.1 ≤ b.2 ∧ b.1 ≤ a.2))

namespace RangeList

variable {V : Type}

/-- The recursion behind SortedRangeMap.indexOf: binary search over the
entry list between the low and high indices, returning the index of the
entry covering the key, or the complement of the insertion index. -/
def indexOfAux (l : List (REntry V)) (k : Int) (low high : Int) : Int :=
  if _h : low ≤ high then
    match l[(low + (high - low) / 2).toNat]? with
    | some en =>
      if k > en.1.2 then indexOfAux l k (low + (high - low) / 2 + 1) high
      else if k < en.1.1 then indexOfAux l k low (low + (high - low) / 2 - 1)
      else low + (high - low) / 2
    | none => jsNot low
  else jsNot low
termination_by (high + 1 - low).toNat
decreasing_by
  all_goals omega

/-- SortedRangeMap.indexOf from the source. -/
def indexOf (l : List (REntry V)) (k : Int) : Int :=
  indexOfAux l k 0 ((l.length : Int) - 1)

/-- The private maybeMergeWithPreviousEntry: merge the entry at the index
into the previous one when they are adjacent and share a value. -/
def maybeMergeWithPreviousEntry [DecidableEq V] (l : List (REntry V)) (index : Nat) :
    List (REntry V) :=
  if index = 0 then l
  else
    match l[index]?, l[index - 1]? with
    | some cur, some previous =>
      if previous.1.2 + 1 = cur.1.1 ∧ previous.2 = cur.2 then
        l.take (index - 1) ++ ((previous.1.1, cur.1.2), previous.2) :: l.drop (index + 1)
      else l
    | _, _ => l

/-- The private deleteFromSingleRange: remove the part of the entry at the
target index that lies inside the delete range, trimming or splitting it. -/
def deleteFromSingleRange (l : List (REntry V)) (targetIndex : Nat) (r : SRange) :
    List (REntry V) :=
  match l[targetIndex]? with
  | none => l
  | some target =>
    if r.1 ≤ target.1.1 then
      if r.2 ≥ target.1.2 then
        l.take targetIndex ++ l.drop (targetIndex + 1)
      else
        l.set targetIndex ((r.2 + 1, target.1.2), target.2)
    else if r.2 ≥ target.1.2 then
      l.set targetIndex ((target.1.1, r.1 - 1), target.2)
    else
      l.take targetIndex ++
        ((target.1.1, r.1 - 1), target.2) :: ((r.2 + 1, target.1.2), target.2) ::
          l.drop (targetIndex + 1)

/-- The private indicesOf: the inclusive index range of entries intersecting
the given range, or none when it intersects no entry. -/
def indicesOf (l : List (REntry V)) (r : SRange) : Option (Int × Int) :=
  let firstIndex := indexOf l r.1
  let lastIndex := if r.1 = r.2 then firstIndex else indexOf l r.2
  if firstIndex < 0 ∧ firstIndex = lastIndex then none
  else some (if firstIndex < 0 then jsNot firstIndex else firstIndex,
             if lastIndex < 0 then jsNot lastIndex - 1 else lastIndex)

/-- The private delete: remove every key of the range, reporting whether
anything was removed; transcribed splice by splice. -/
def delEntries (l : List (REntry V)) (r : SRange) : Bool × List (REntry V) :=
  match indicesOf l r with
  | none => (false, l)
  | some (firstIndex, lastIndex) =>
    let l1 := deleteFromSingleRange l lastIndex.toNat r
    let fullyContainedStartIndex := firstIndex + 1
    let deleteCount := lastIndex - fullyContainedStartIndex
    let l2 := l1.take fullyContainedStartIndex.toNat ++
      l1.drop (fullyContainedStartIndex.toNat + deleteCount.toNat)
    let l3 := if firstIndex ≠ lastIndex then deleteFromSingleRange l2 firstIndex.toNat r
              else l2
    (true, l3)

/-- The insertion phase of SortedRangeMap.set, after the deletion phase has
cleared the span: insert the new entry at its sorted position, then try
merging with the next and previous entries. -/
def insertAndMerge [DecidableEq V] (l1 : List (REntry V)) (r : SRange) (value : V) :
    List (REntry V) :=
  let insertIndex := (jsNot (indexOf l1 r.1)).toNat
  let l2 := l1.take insertIndex ++ (r, value) :: l1.drop insertIndex
  let nextIndex := insertIndex + 1
  let l3 := if nextIndex < l2.length then maybeMergeWithPreviousEntry l2 nextIndex else l2
  maybeMergeWithPreviousEntry l3 insertIndex

/-- SortedRangeMap.set without the validation step: delete the span, insert
the new entry at its sorted position, then try merging with the next and
previous entries. -/
def setEntries [DecidableEq V] (l : List (REntry V)) (r : SRange) (value : V) :
    List (REntry V) :=
  insertAndMerge (delEntries l r).2 r value

/-- The first clamping step of slice: raise the first copied entry's start
to the slice range's start. -/
def clampFirst (r : SRange) (cp : List (REntry V)) : List (REntry V) :=
  match cp[0]? with
  | some first => cp.set 0 ((max r.1 first.1.1, first.1.2), first.2)
  | none => cp

/-- The second clamping step of slice: lower the last copied entry's end to
the slice range's end. -/
def clampLast (r : SRange) (cp : List (REntry V)) : List (REntry V) :=
  match cp[cp.length - 1]? with
  | some last => cp.set (cp.length - 1) ((last.1.1, min r.2 last.1.2), last.2)
  | none => cp

/-- SortedRangeMap.slice without the validation step: copy the entries the
range intersects and clamp the first copied start and last copied end. -/
def sliceEntries (l : List (REntry V)) (r : SRange) : List (REntry V) :=
  match indicesOf l r with
  | none => []
  | some (firstIndex, lastIndex) =>
    let entriesCopy :=
      (l.drop firstIndex.toNat).take (lastIndex.toNat - firstIndex.toNat + 1)
    clampLast r (clampFirst r entriesCopy)

/-- SortedRangeMap.hasAll without the validation step: both endpoints must
be covered and the covering entries must leave no gap in between. -/
def hasAllEntries (l : List (REntry V)) (r : SRange) : Bool :=
  let firstIndex := indexOf l r.1
  if firstIndex < 0 then false
  else
    let lastIndex := if r.1 = r.2 then firstIndex else indexOf l r.2
    if lastIndex < 0 then false
    else
      (List.range' (firstIndex.toNat + 1) (lastIndex.toNat - firstIndex.toNat)).all
        fun index =>
          match l[index - 1]?, l[index]? with
          | some previous, some cur => previous.1.2 + 1 == cur.1.1
          | _, _ => true

/-- SortedRangeMap.hasAny without the validation step. -/
def hasAnyEntries (l : List (REntry V)) (r : SRange) : Bool :=
  let firstIndex := indexOf l r.1
  if 0 ≤ firstIndex then true
  else
    let lastIndex := if r.1 = r.2 then firstIndex else indexOf l r.2
    if 0 ≤ lastIndex then true
    else firstIndex != lastIndex

/-- The value associated with a key: the first entry whose range covers it.
This is the semantic reading of the entry list used throughout the proofs. -/
def lookup (l : List (REntry V)) (k : Int) : Option V :=
  (l.find? fun en => decide (covers en.1 k)).map Prod.snd

/-- A key is a member when some entry covers it. -/
def memK (l : List (REntry V)) (k : Int) : Prop := ∃ en ∈ l, covers en.1 k

instance : ∀ (l : List (REntry V)) k, Decidable (memK l k) := fun l k =>
  inferInstanceAs (Decidable (∃ en ∈ l, covers en.1 k))

/-- The relation between consecutive entries demanded by the class
invariant: strictly increasing with no adjacent equal-valued neighbors. -/
def EntryRel (a b : REntry V) : Prop :=
  a.1.2 < b.1.1 ∧ (a.1.2 + 1 = b.1.1 → a.2 ≠ b.2)

instance [DecidableEq V] : ∀ a b : REntry V, Decidable (EntryRel a b) := fun a b =>
  inferInstanceAs (Decidable (a.1.2 < b.1.1 ∧ (a.1.2 + 1 = b.1.1 → a.2 ≠ b.2)))

/-- The class invariant of SortedRangeMap: every range is well formed and
consecutive entries are sorted, disjoint, and minimal. -/
structure Inv (l : List (REntry V)) : Prop where
  wf : ∀ en ∈ l, en.1.1 ≤ en.1.2
  chain : l.Chain' EntryRel

instance [DecidableEq V] : ∀ l : List (REntry V), Decidable (Inv l) := fun l =>
  decidable_of_iff ((∀ en ∈ l, en.1.1 ≤ en.1.2) ∧ l.Chain' EntryRel)
    ⟨fun h => ⟨h.1, h.2⟩, fun h => ⟨h.wf, h.chain⟩⟩

/-- The insertion index for a key not covered by any entry: the number of
entries whose range ends before the key. -/
def insPos (l : List (REntry V)) (k : Int) : Nat :=
  l.countP fun en => decide (en.1.2 < k)

/-- The individual keys of one inclusive range, in order. -/
def rangeKeys (r : SRange) : List Int :=
  (List.range (r.2 + 1 - r.1).toNat).map fun i => r.1 + i

end RangeList

/-- The SortedRangeMap class: its state is the private entries array. The
public range-accepting methods return none where the source throws the
assertRange TypeError. -/
structure SortedRangeMap (V : Type) where
  entries : List (REntry V)

namespace SortedRangeMap

variable {V : Type}

/-- The size getter: the number of entries. -/
def size (m : SortedRangeMap V) : Nat := m.entries.length

/-- The public indexOf method. -/
def indexOf (m : SortedRangeMap V) (key : Int) : Int := RangeList.indexOf m.entries key

/-- The public has method: whether indexOf found a covering entry. -/
def has (m : SortedRangeMap V) (key : Int) : Bool := decide (0 ≤ m.indexOf key)

/-- The public get method: the entry covering the key, if any. -/
def get (m : SortedRangeMap V) (key : Int) : Option (REntry V) :=
  if 0 ≤ m.indexOf key then m.entries[(m.indexOf key).toNat]? else none

/-- The public at method: the entry at the index, negative indices counting
from the end, none when out of bounds. -/
def atIndex (m : SortedRangeMap V) (index : Int) : Option (REntry V) :=
  let i := if index < 0 then index + m.entries.length else index
  if 0 ≤ i ∧ i < (m.entries.length : Int) then m.entries[i.toNat]? else none

/-- The public set method: validate, then delete the span, insert, merge. -/
def set [DecidableEq V] (m : SortedRangeMap V) (r : SRange) (v : V) :
    Option (SortedRangeMap V) :=
  if assertRange r then some ⟨RangeList.setEntries m.entries r v⟩ else none

/-- The public delete method: validate, then remove the span, reporting
whether any keys were removed. -/
def delete (m : SortedRangeMap V) (r : SRange) : Option (Bool × SortedRangeMap V) :=
  if assertRange r then
    some ((RangeList.delEntries m.entries r).1, ⟨(RangeList.delEntries m.entries r).2⟩)
  else none

/-- The public clear method. -/
def clear (_m : SortedRangeMap V) : SortedRangeMap V := ⟨[]⟩

/-- The public slice method: validate, then copy the intersecting portions. -/
def slice (m : SortedRangeMap V) (r : SRange) : Option (SortedRangeMap V) :=
  if assertRange r then some ⟨RangeList.sliceEntries m.entries r⟩ else none

/-- The public hasAll method. -/
def hasAll (m : SortedRangeMap V) (r : SRange) : Option Bool :=
  if assertRange r then some (RangeList.hasAllEntries m.entries r) else none

/-- The public hasAny method. -/
def hasAny (m : SortedRangeMap V) (r : SRange) : Option Bool :=
  if assertRange r then some (RangeList.hasAnyEntries m.entries r) else none

/-- Iteration and the entries method: the entry sequence in sorted order. -/
def entriesList (m : SortedRangeMap V) : List (REntry V) := m.entries

/-- The ranges method: each entry's range in sorted order. -/
def rangesList (m : SortedRangeMap V) : List SRange := m.entries.map Prod.fst

/-- The values method: each entry's value in sorted range order. -/
def valuesList (m : SortedRangeMap V) : List V := m.entries.map Prod.snd

/-- The keys method: every key of every range, in ascending order. -/
def keysList (m : SortedRangeMap V) : List Int :=
  m.entries.flatMap fun en => RangeList.rangeKeys en.1

/-- The constructor from an iterable of entries: start empty and apply the
set method to each entry in turn. -/
def ofEntries [DecidableEq V] (entries : List (REntry V)) : Option (SortedRangeMap V) :=
  entries.foldlM (fun m en => m.set en.1 en.2) ⟨[]⟩

end SortedRangeMap

/-- The SortedRangeSet class: owns a SortedRangeMap with the placeholder
value 0 and delegates every operation to it. -/
structure SortedRangeSet where
  map : SortedRangeMap Nat

namespace SortedRangeSet

/-- The placeholder value the set stores in its delegate map. -/
def placeholder : Nat := 0

/-- The public add method: set the range to the placeholder value. -/
def add (s : SortedRangeSet) (r : SRange) : Option SortedRangeSet :=
  (s.map.set r placeholder).map SortedRangeSet.mk

/-- The public delete method, forwarded to the map. -/
def delete (s : SortedRangeSet) (r : SRange) : Option (Bool × SortedRangeSet) :=
  (s.map.delete r).map fun p => (p.1, ⟨p.2⟩)

/-- The public clear method, forwarded to the map. -/
def clear (s : SortedRangeSet) : SortedRangeSet := ⟨s.map.clear⟩

/-- The public slice method: a new set wrapping the sliced map. -/
def slice (s : SortedRangeSet) (r : SRange) : Option SortedRangeSet :=
  (s.map.slice r).map SortedRangeSet.mk

/-- The public has method, forwarded to the map. -/
def has (s : SortedRangeSet) (k : Int) : Bool := s.map.has k

/-- The public hasAll method, forwarded to the map. -/
def hasAll (s : SortedRangeSet) (r : SRange) : Option Bool := s.map.hasAll r

/-- The public hasAny method, forwarded to the map. -/
def hasAny (s : SortedRangeSet) (r : SRange) : Option Bool := s.map.hasAny r

/-- The public at method: the map's entry with the value stripped. -/
def atIndex (s : SortedRangeSet) (i : Int) : Option SRange :=
  (s.map.atIndex i).map Prod.fst

/-- The public get method: the map's entry with the value stripped. -/
def get (s : SortedRangeSet) (k : Int) : Option SRange :=
  (s.map.get k).map Prod.fst

/-- The public indexOf method, forwarded to the map. -/
def indexOf (s : SortedRangeSet) (k : Int) : Int := s.map.indexOf k

/-- The size getter, forwarded to the map. -/
def size (s : SortedRangeSet) : Nat := s.map.size

/-- Iteration: the map's ranges. -/
def rangesList (s : SortedRangeSet) : List SRange := s.map.rangesList

/-- The keys method, forwarded to the map. -/
def keysList (s : SortedRangeSet) : List Int := s.map.keysList

/-- The constructor from an iterable of ranges: start empty and apply the
add method to each range in turn. -/
def ofRanges (ranges : List SRange) : Option SortedRangeSet :=
  ranges.foldlM (fun s r => s.add r) ⟨⟨[]⟩⟩

end SortedRangeSet

/-- One mutating operation of the range-set interface, used to compare a
SortedRangeSet against a bare SortedRangeMap over whole operation
sequences. -/
inductive SetOp where
  | add : SRange → SetOp
  | del : SRange → SetOp
  | clear : SetOp
  | slice : SRange → SetOp

/-- Run one operation on a SortedRangeSet through its public methods. -/
def applySetOp (s : SortedRangeSet) : SetOp → Option SortedRangeSet
  | SetOp.add r => s.add r
  | SetOp.del r => (s.delete r).map Prod.snd
  | SetOp.clear => some s.clear
  | SetOp.slice r => s.slice r

/-- The specification-side model: the same operation on a bare
SortedRangeMap, with add performed as set with the constant placeholder
value. -/
def applyMapOp (m : SortedRangeMap Nat) : SetOp → Option (SortedRangeMap Nat)
  | SetOp.add r => m.set r SortedRangeSet.placeholder
  | SetOp.del r => (m.delete r).map Prod.snd
  | SetOp.clear => some m.clear
  | SetOp.slice r => m.slice r

/-- Run a whole operation sequence on a SortedRangeSet. -/
def runSetOps (s : SortedRangeSet) (ops : List SetOp) : Option SortedRangeSet :=
  ops.foldlM applySetOp s

/-- Run a whole operation sequence on the model map. -/
def runMapOps (m : SortedRangeMap Nat) (ops : List SetOp) :
    Option (SortedRangeMap Nat) :=
  ops.foldlM applyMapOp m

/-- A sample entry list used to exercise the verified statements. -/
def exEntries : List (REntry Nat) := [((1, 2), 42), ((6, 7), 3)]

/-- A sample map holding the sample entries. -/
def exMap : SortedRangeMap Nat := ⟨exEntries⟩

/-- A sample set whose delegate map stores the placeholder value. -/
def exSet : SortedRangeSet := ⟨⟨[((1, 3), 0), ((6, 9), 0)]⟩⟩

namespace RangeList

variable {V : Type}

theorem assertRange_iff (r : SRange) : assertRange r = true ↔ ValidRange r := by
  simp [assertRange, isSafeInteger, ValidRange, and_assoc]

theorem jsNot_jsNot (n : Int) : jsNot (jsNot n) = n := by unfold jsNot; ring

theorem jsNot_neg (n : Int) (h : 0 ≤ n) : jsNot n < 0 := by unfold jsNot; omega

/-- The tail of an invariant-satisfying list satisfies the invariant. -/
theorem Inv.tail {a : REntry V} {t : List (REntry V)} (h : Inv (a :: t)) : Inv t :=
  ⟨fun en he => h.wf en (List.mem_cons_of_mem _ he), h.chain.tail⟩

/-- Along the invariant chain, the head's range ends before every later
range starts. -/
theorem chain_head_lt {a : REntry V} {t : List (REntry V)}
    (hwf : ∀ en ∈ t, en.1.1 ≤ en.1.2) (hc : List.Chain' EntryRel (a :: t)) :
    ∀ b ∈ t, a.1.2 < b.1.1 := by
  induction t generalizing a with
  | nil => simp
  | cons c t ih =>
    intro b hb
    rw [List.chain'_cons] at hc
    rcases List.mem_cons.mp hb with rfl | hb
    · exact hc.1.1
    · have h1 := ih (fun en he => hwf en (List.mem_cons_of_mem _ he)) hc.2 b hb
      have h2 : c.1.1 ≤ c.1.2 := hwf c (List.mem_cons_self _ _)
      have h3 := hc.1.1
      omega

/-- The invariant makes the entry list pairwise sorted: any earlier range
ends strictly before any later range starts. -/
theorem Inv.sorted {l : List (REntry V)} (h : Inv l) :
    l.Pairwise fun a b : REntry V => a.1.2 < b.1.1 := by
  induction l with
  | nil => exact List.Pairwise.nil
  | cons a t ih =>
    exact List.Pairwise.cons (chain_head_lt (Inv.tail h).wf h.chain) (ih (Inv.tail h))

/-- Indexed form of sortedness. -/
theorem sorted_get_lt {l : List (REntry V)} (h : Inv l) {i j : Nat} (hij : i < j)
    {x y : REntry V} (hx : l[i]? = some x) (hy : l[j]? = some y) : x.1.2 < y.1.1 := by
  rw [List.getElem?_eq_some] at hx hy
  obtain ⟨hi, rfl⟩ := hx
  obtain ⟨hj, rfl⟩ := hy
  exact List.pairwise_iff_getElem.mp h.sorted i j hi hj hij

/-- Well-formedness of the entry fetched at an index. -/
theorem wf_get {l : List (REntry V)} (h : Inv l) {i : Nat} {x : REntry V}
    (hx : l[i]? = some x) : x.1.1 ≤ x.1.2 :=
  h.wf x (List.getElem?_mem hx)

/-- Under the invariant, at most one index carries an entry covering a key. -/
theorem covers_unique {l : List (REntry V)} (h : Inv l) {i j : Nat} {x y : REntry V}
    {k : Int} (hx : l[i]? = some x) (hy : l[j]? = some y)
    (hcx : covers x.1 k) (hcy : covers y.1 k) : i = j := by
  rcases Nat.lt_trichotomy i j with hij | hij | hij
  · have := sorted_get_lt h hij hx hy
    unfold covers at hcx hcy
    omega
  · exact hij
  · have := sorted_get_lt h hij hy hx
    unfold covers at hcx hcy
    omega

/-- A count over a list whose predicate holds up to an index and fails from
it on equals that index. -/
theorem countP_eq_of_split {p : REntry V → Bool} {l : List (REntry V)} {m : Nat}
    (hm : m ≤ l.length)
    (h1 : ∀ i : Nat, i < m → ∀ en, l[i]? = some en → p en = true)
    (h2 : ∀ i : Nat, m ≤ i → ∀ en, l[i]? = some en → p en = false) :
    l.countP p = m := by
  have hall : ∀ a ∈ l.take m, p a = true := by
    intro a ha
    obtain ⟨i, hi⟩ := List.mem_iff_getElem?.mp ha
    rw [List.getElem?_take] at hi
    by_cases hc : i < m
    · rw [if_pos hc] at hi
      exact h1 i hc a hi
    · rw [if_neg hc] at hi
      exact absurd hi (by simp)
  have hnone : ∀ a ∈ l.drop m, ¬ p a = true := by
    intro a ha
    obtain ⟨i, hi⟩ := List.mem_iff_getElem?.mp ha
    rw [List.getElem?_drop] at hi
    rw [h2 (m + i) (Nat.le_add_right m i) a hi]
    simp
  calc l.countP p = (l.take m ++ l.drop m).countP p := by rw [List.take_append_drop]
    _ = (l.take m).countP p + (l.drop m).countP p := List.countP_append ..
    _ = m + 0 := by
        rw [List.countP_eq_length.mpr hall, List.countP_eq_zero.mpr hnone,
          List.length_take, Nat.min_eq_left hm]
    _ = m := Nat.add_zero m

/-- Under the invariant, the entries below the insertion index end before
the key and the entries from it on end at or after the key. -/
theorem insPos_split {l : List (REntry V)} (hI : Inv l) (k : Int) :
    (∀ i : Nat, i < insPos l k → ∀ en : REntry V, l[i]? = some en → en.1.2 < k) ∧
    (∀ i : Nat, insPos l k ≤ i → ∀ en : REntry V, l[i]? = some en → k ≤ en.1.2) := by
  induction l with
  | nil => simp [insPos]
  | cons a t ih =>
    obtain ⟨ih1, ih2⟩ := ih hI.tail
    by_cases hp : a.1.2 < k
    · have hcount : insPos (a :: t) k = insPos t k + 1 := by
        unfold insPos
        rw [List.countP_cons_of_pos]
        simp [hp]
      constructor
      · intro i hi en hen
        match i with
        | 0 =>
          obtain rfl : a = en := by simpa using hen
          omega
        | i + 1 =>
          rw [hcount] at hi
          exact ih1 i (by omega) en (by simpa using hen)
      · intro i hi en hen
        rw [hcount] at hi
        match i with
        | 0 => omega
        | i + 1 => exact ih2 i (by omega) en (by simpa using hen)
    · have hz : insPos (a :: t) k = 0 := by
        unfold insPos
        rw [List.countP_cons_of_neg]
        · rw [List.countP_eq_zero]
          intro b hb
          have h1 := chain_head_lt hI.tail.wf hI.chain b hb
          have h2 := hI.tail.wf b hb
          simp only [decide_eq_true_eq]
          omega
        · simp [hp]
      rw [hz]
      refine ⟨fun i hi => absurd hi (by omega), ?_⟩
      intro i _ en hen
      match i with
      | 0 =>
        obtain rfl : a = en := by simpa using hen
        omega
      | i + 1 =>
        have hmem : en ∈ t := List.getElem?_mem (show t[i]? = some en by simpa using hen)
        have h1 := chain_head_lt hI.tail.wf hI.chain en hmem
        have h2 := hI.tail.wf en hmem
        omega

/-- Unfolding the binary search at an exhausted window. -/
theorem indexOfAux_stop {l : List (REntry V)} {k low high : Int} (h : ¬ low ≤ high) :
    indexOfAux l k low high = jsNot low := by
  rw [indexOfAux.eq_def, dif_neg h]

/-- Unfolding one step of the binary search when the middle probe lands on
an entry. -/
theorem indexOfAux_step {l : List (REntry V)} {k low high : Int} (h : low ≤ high)
    {en : REntry V} (hen : l[(low + (high - low) / 2).toNat]? = some en) :
    indexOfAux l k low high =
      if k > en.1.2 then indexOfAux l k (low + (high - low) / 2 + 1) high
      else if k < en.1.1 then indexOfAux l k low (low + (high - low) / 2 - 1)
      else low + (high - low) / 2 := by
  conv_lhs => rw [indexOfAux.eq_def]
  rw [dif_pos h, hen]

/-- Exhausted-window conclusion of the search: the key is uncovered and the
result encodes the insertion index. -/
theorem indexOfAux_terminal {l : List (REntry V)} (hI : Inv l) (k : Int)
    {low high : Int} (hlh : high < low) (hlow : 0 ≤ low)
    (hlen : low ≤ (l.length : Int)) (hhigh : high < (l.length : Int))
    (h1 : ∀ i : Nat, (i : Int) < low → ∀ en : REntry V, l[i]? = some en → en.1.2 < k)
    (h2 : ∀ i : Nat, high < (i : Int) → ∀ en : REntry V, l[i]? = some en → k < en.1.1) :
    jsNot low = jsNot (insPos l k) ∧ ∀ en ∈ l, ¬ covers en.1 k := by
  have hm : low.toNat ≤ l.length := by omega
  have hcount : l.countP (fun en => decide (en.1.2 < k)) = low.toNat := by
    apply countP_eq_of_split hm
    · intro i hi en hen
      simp only [decide_eq_true_eq]
      exact h1 i (by omega) en hen
    · intro i hi en hen
      simp only [decide_eq_false_iff_not, not_lt]
      have hstart := h2 i (by omega) en hen
      have hwf := wf_get hI hen
      omega
  have hnc : ∀ en ∈ l, ¬ covers en.1 k := by
    intro en hen hc
    obtain ⟨i, hi⟩ := List.mem_iff_getElem?.mp hen
    unfold covers at hc
    rcases lt_or_le (i : Int) low with hil | hil
    · have := h1 i hil en hi
      omega
    · have := h2 i (by omega) en hi
      omega
  refine ⟨?_, hnc⟩
  unfold insPos
  rw [hcount]
  unfold jsNot
  omega

/-- The full characterization of the binary search: inside a window whose
outside is already classified, it either finds the unique covering entry or
reports the complement of the insertion index of an uncovered key. -/
theorem indexOfAux_spec {l : List (REntry V)} (hI : Inv l) (k : Int) :
    ∀ fuel : Nat, ∀ low high : Int, (high + 1 - low).toNat ≤ fuel → 0 ≤ low →
    low ≤ (l.length : Int) → high < (l.length : Int) →
    (∀ i : Nat, (i : Int) < low → ∀ en : REntry V, l[i]? = some en → en.1.2 < k) →
    (∀ i : Nat, high < (i : Int) → ∀ en : REntry V, l[i]? = some en → k < en.1.1) →
    (0 ≤ indexOfAux l k low high ∧
      ∃ en : REntry V, l[(indexOfAux l k low high).toNat]? = some en ∧ covers en.1 k)
    ∨ (indexOfAux l k low high = jsNot (insPos l k) ∧ ∀ en ∈ l, ¬ covers en.1 k) := by
  intro fuel
  induction fuel with
  | zero =>
    intro low high hfuel hlow hlen hhigh h1 h2
    have hlh : ¬ low ≤ high := by omega
    rw [indexOfAux_stop hlh]
    right
    exact indexOfAux_terminal hI k (by omega) hlow hlen hhigh h1 h2
  | succ n ih =>
    intro low high hfuel hlow hlen hhigh h1 h2
    by_cases hlh : low ≤ high
    · have hmb : (low + (high - low) / 2).toNat < l.length := by omega
      obtain ⟨en, hen⟩ : ∃ en, l[(low + (high - low) / 2).toNat]? = some en :=
        ⟨l[(low + (high - low) / 2).toNat], List.getElem?_eq_getElem hmb⟩
      rw [indexOfAux_step hlh hen]
      by_cases hgt : k > en.1.2
      · rw [if_pos hgt]
        refine ih (low + (high - low) / 2 + 1) high (by omega) (by omega) (by omega) hhigh
          ?_ h2
        intro i hi en2 hen2
        rcases lt_or_le (i : Int) low with hc | hc
        · exact h1 i hc en2 hen2
        · by_cases he : i = (low + (high - low) / 2).toNat
          · subst he
            rw [hen] at hen2
            obtain rfl := Option.some.inj hen2
            omega
          · have hlt : i < (low + (high - low) / 2).toNat := by omega
            have hs := sorted_get_lt hI hlt hen2 hen
            have hw := wf_get hI hen
            omega
      · rw [if_neg hgt]
        by_cases hltk : k < en.1.1
        · rw [if_pos hltk]
          refine ih low (low + (high - low) / 2 - 1) (by omega) hlow hlen (by omega) h1 ?_
          intro i hi en2 hen2
          by_cases he : i = (low + (high - low) / 2).toNat
          · subst he
            rw [hen] at hen2
            obtain rfl := Option.some.inj hen2
            omega
          · have hgt2 : (low + (high - low) / 2).toNat < i := by omega
            have hs := sorted_get_lt hI hgt2 hen hen2
            have hw := wf_get hI hen
            omega
        · rw [if_neg hltk]
          left
          refine ⟨by omega, en, hen, ?_⟩
          unfold covers
          omega
    · rw [indexOfAux_stop hlh]
      right
      exact indexOfAux_terminal hI k (by omega) hlow hlen hhigh h1 h2

/-- indexOf either finds the covering entry, or the key is uncovered and the
result is the complement of the insertion index. -/
theorem indexOf_spec {l : List (REntry V)} (hI : Inv l) (k : Int) :
    (0 ≤ indexOf l k ∧
      ∃ en : REntry V, l[(indexOf l k).toNat]? = some en ∧ covers en.1 k)
    ∨ (indexOf l k = jsNot (insPos l k) ∧ ∀ en ∈ l, ¬ covers en.1 k) := by
  refine indexOfAux_spec hI k ((l.length : Int) - 1 + 1 - 0).toNat 0
    ((l.length : Int) - 1) le_rfl le_rfl (by omega) (by omega)
    (fun i hi en hen => by omega) ?_
  intro i hi en hen
  rw [List.getElem?_eq_none_iff.mpr (by omega)] at hen
  simp at hen

/-- The search succeeds exactly on covered keys. -/
theorem indexOf_nonneg_iff {l : List (REntry V)} (hI : Inv l) (k : Int) :
    0 ≤ indexOf l k ↔ memK l k := by
  constructor
  · intro h
    rcases indexOf_spec hI k with ⟨_, en, hen, hc⟩ | ⟨heq, _⟩
    · exact ⟨en, List.getElem?_mem hen, hc⟩
    · rw [heq] at h
      have := jsNot_neg ((insPos l k : Nat) : Int) (by positivity)
      omega
  · intro ⟨en, hmem, hc⟩
    rcases indexOf_spec hI k with ⟨h, _⟩ | ⟨_, hnc⟩
    · exact h
    · exact absurd hc (hnc en hmem)

/-- On success the returned index carries an entry covering the key. -/
theorem indexOf_found {l : List (REntry V)} (hI : Inv l) {k : Int}
    (h : 0 ≤ indexOf l k) :
    ∃ en : REntry V, l[(indexOf l k).toNat]? = some en ∧ covers en.1 k := by
  rcases indexOf_spec hI k with ⟨_, hfound⟩ | ⟨heq, _⟩
  · exact hfound
  · rw [heq] at h
    have := jsNot_neg ((insPos l k : Nat) : Int) (by positivity)
    omega

/-- On failure the key is uncovered and the result is the complement of the
insertion index. -/
theorem indexOf_neg {l : List (REntry V)} (hI : Inv l) {k : Int}
    (h : indexOf l k < 0) :
    indexOf l k = jsNot (insPos l k) ∧ ∀ en ∈ l, ¬ covers en.1 k := by
  rcases indexOf_spec hI k with ⟨hpos, _⟩ | hres
  · omega
  · exact hres

/-- The index of the entry covering a key is the search result. -/
theorem indexOf_eq_of_covers {l : List (REntry V)} (hI : Inv l) {k : Int} {i : Nat}
    {en : REntry V} (hen : l[i]? = some en) (hc : covers en.1 k) :
    indexOf l k = (i : Int) := by
  have h0 : 0 ≤ indexOf l k :=
    (indexOf_nonneg_iff hI k).mpr ⟨en, List.getElem?_mem hen, hc⟩
  obtain ⟨en2, hen2, hc2⟩ := indexOf_found hI h0
  have := covers_unique hI hen2 hen hc2 hc
  omega

theorem jsNot_inj {a b : Int} (h : jsNot a = jsNot b) : a = b := by
  unfold jsNot at h
  omega

/-- The semantic lookup returns none exactly on uncovered keys. -/
theorem lookup_eq_none_iff {l : List (REntry V)} {k : Int} :
    lookup l k = none ↔ ¬ memK l k := by
  unfold lookup memK
  rw [Option.map_eq_none', List.find?_eq_none]
  simp

/-- Under the invariant the semantic lookup returns exactly the value of
the unique covering entry. -/
theorem lookup_eq_some_iff {l : List (REntry V)} (hI : Inv l) {k : Int} {v : V} :
    lookup l k = some v ↔ ∃ en ∈ l, covers en.1 k ∧ en.2 = v := by
  unfold lookup
  constructor
  · intro h
    obtain ⟨en, hfind, hv⟩ := Option.map_eq_some'.mp h
    exact ⟨en, List.mem_of_find?_eq_some hfind, by simpa using List.find?_some hfind, hv⟩
  · rintro ⟨en, hmem, hc, rfl⟩
    cases hfind : l.find? (fun en => decide (covers en.1 k)) with
    | none =>
      rw [List.find?_eq_none] at hfind
      exact absurd (decide_eq_true hc) (hfind en hmem)
    | some en2 =>
      obtain ⟨i, hi⟩ := List.mem_iff_getElem?.mp (List.mem_of_find?_eq_some hfind)
      obtain ⟨j, hj⟩ := List.mem_iff_getElem?.mp hmem
      have hc2 : covers en2.1 k := by simpa using List.find?_some hfind
      have hij := covers_unique hI hi hj hc2 hc
      subst hij
      rw [hi] at hj
      obtain rfl := Option.some.inj hj
      rfl

/-- For two uncovered endpoints, their insertion indices differ exactly
when a covered key lies between them. -/
theorem insPos_ne_iff {l : List (REntry V)} (hI : Inv l) {s e : Int} (_hse : s ≤ e)
    (hs : ∀ en ∈ l, ¬ covers en.1 s) (he : ∀ en ∈ l, ¬ covers en.1 e) :
    insPos l s ≠ insPos l e ↔ ∃ k : Int, s ≤ k ∧ k ≤ e ∧ memK l k := by
  constructor
  · intro hne
    rcases Nat.lt_or_ge (insPos l s) (insPos l e) with hlt | hge
    · have hb : insPos l s < l.length := lt_of_lt_of_le hlt (l.countP_le_length _)
      obtain ⟨en, hen⟩ : ∃ en, l[insPos l s]? = some en :=
        ⟨l[insPos l s], List.getElem?_eq_getElem hb⟩
      have h1 := (insPos_split hI e).1 (insPos l s) hlt en hen
      have h2 := (insPos_split hI s).2 (insPos l s) le_rfl en hen
      have hwf := wf_get hI hen
      exact ⟨en.1.2, h2, by omega, en, List.getElem?_mem hen, by unfold covers; omega⟩
    · have hlt : insPos l e < insPos l s := by omega
      have hb : insPos l e < l.length := lt_of_lt_of_le hlt (l.countP_le_length _)
      obtain ⟨en, hen⟩ : ∃ en, l[insPos l e]? = some en :=
        ⟨l[insPos l e], List.getElem?_eq_getElem hb⟩
      have h1 := (insPos_split hI s).1 (insPos l e) hlt en hen
      have h2 := (insPos_split hI e).2 (insPos l e) le_rfl en hen
      omega
  · rintro ⟨k, hks, hke, en, hmem, hc⟩
    obtain ⟨i, hi⟩ := List.mem_iff_getElem?.mp hmem
    have hilb : insPos l s ≤ i := by
      by_contra hcon
      have := (insPos_split hI s).1 i (by omega) en hi
      unfold covers at hc
      omega
    have hiub : i < insPos l e := by
      by_contra hcon
      have h2 := (insPos_split hI e).2 i (by omega) en hi
      unfold covers at hc
      exact he en hmem (by unfold covers; omega)
    omega

/-- hasAny decides the existence of a covered key inside the range. -/
theorem hasAnyEntries_iff {l : List (REntry V)} (hI : Inv l) {r : SRange}
    (hr : r.1 ≤ r.2) :
    hasAnyEntries l r = true ↔ ∃ k : Int, r.1 ≤ k ∧ k ≤ r.2 ∧ memK l k := by
  simp only [hasAnyEntries]
  split_ifs with h1 h2 h3
  · obtain ⟨en, hen, hc⟩ := indexOf_found hI h1
    exact iff_of_true rfl ⟨r.1, le_rfl, hr, en, List.getElem?_mem hen, hc⟩
  · refine iff_of_false (by simp) ?_
    rintro ⟨k, hk1, hk2, hmk⟩
    obtain rfl : k = r.1 := by omega
    exact h1 ((indexOf_nonneg_iff hI r.1).mpr hmk)
  · obtain ⟨en, hen, hc⟩ := indexOf_found hI h3
    exact iff_of_true rfl ⟨r.2, hr, le_rfl, en, List.getElem?_mem hen, hc⟩
  · have hn1 : indexOf l r.1 < 0 := by omega
    have hn2 : indexOf l r.2 < 0 := by omega
    have hf := indexOf_neg hI hn1
    have hg := indexOf_neg hI hn2
    rw [hf.1, hg.1, bne_iff_ne]
    constructor
    · intro hne
      refine (insPos_ne_iff hI hr hf.2 hg.2).mp ?_
      intro hcon
      exact hne (by rw [hcon])
    · intro hex hcon
      have hc2 := jsNot_inj hcon
      exact ((insPos_ne_iff hI hr hf.2 hg.2).mpr hex) (by exact_mod_cast hc2)

/-- hasAll decides whether every key of the range is covered. -/
theorem hasAllEntries_iff {l : List (REntry V)} (hI : Inv l) {r : SRange}
    (hr : r.1 ≤ r.2) :
    hasAllEntries l r = true ↔ ∀ k : Int, r.1 ≤ k → k ≤ r.2 → memK l k := by
  simp only [hasAllEntries]
  split_ifs with h1 h2 h3
  · refine iff_of_false (by simp) ?_
    intro hall
    have := (indexOf_nonneg_iff hI r.1).mpr (hall r.1 le_rfl hr)
    omega
  · refine iff_of_true (by simp) ?_
    intro k hk1 hk2
    obtain ⟨en, hen, hc⟩ := indexOf_found hI (not_lt.mp h1)
    obtain rfl : k = r.1 := by omega
    exact ⟨en, List.getElem?_mem hen, hc⟩
  · refine iff_of_false (by simp) ?_
    intro hall
    have := (indexOf_nonneg_iff hI r.2).mpr (hall r.2 hr le_rfl)
    omega
  · have hf0 : 0 ≤ indexOf l r.1 := not_lt.mp h1
    have hg0 : 0 ≤ indexOf l r.2 := not_lt.mp h3
    obtain ⟨enf, hfN, hcf⟩ := indexOf_found hI hf0
    obtain ⟨eng, hgN, hcg⟩ := indexOf_found hI hg0
    obtain ⟨hglen, _⟩ := List.getElem?_eq_some.mp hgN
    have hfg : (indexOf l r.1).toNat ≤ (indexOf l r.2).toNat := by
      by_contra hcon
      have hlt : (indexOf l r.2).toNat < (indexOf l r.1).toNat := by omega
      have := sorted_get_lt hI hlt hgN hfN
      unfold covers at hcf hcg
      omega
    rw [List.all_eq_true]
    constructor
    · intro hloop k hk1 hk2
      have aux : ∀ d : Nat, (indexOf l r.1).toNat + d ≤ (indexOf l r.2).toNat →
          ∀ en : REntry V, l[(indexOf l r.1).toNat + d]? = some en →
          ∀ kk : Int, r.1 ≤ kk → kk ≤ en.1.2 → memK l kk := by
        intro d
        induction d with
        | zero =>
          intro _ en hen kk hkk1 hkk2
          rw [Nat.add_zero, hfN] at hen
          obtain rfl := Option.some.inj hen
          refine ⟨enf, List.getElem?_mem hfN, ?_⟩
          unfold covers at hcf ⊢
          omega
        | succ d ihd =>
          intro hle en hen kk hkk1 hkk2
          by_cases hk3 : en.1.1 ≤ kk
          · exact ⟨en, List.getElem?_mem hen, by unfold covers; omega⟩
          · have hbp : (indexOf l r.1).toNat + d < l.length := by omega
            obtain ⟨enp, henp⟩ : ∃ enp, l[(indexOf l r.1).toNat + d]? = some enp :=
              ⟨l[(indexOf l r.1).toNat + d], List.getElem?_eq_getElem hbp⟩
            have hen2 : l[(indexOf l r.1).toNat + d + 1]? = some en := by
              rw [Nat.add_assoc]
              exact hen
            have hgap : enp.1.2 + 1 = en.1.1 := by
              have hx := hloop ((indexOf l r.1).toNat + d + 1)
                (by rw [List.mem_range'_1]; omega)
              simp only [Nat.add_sub_cancel] at hx
              rw [henp, hen2] at hx
              simpa using hx
            exact ihd (by omega) enp henp kk hkk1 (by omega)
      refine aux ((indexOf l r.2).toNat - (indexOf l r.1).toNat) (by omega) eng ?_ k hk1 ?_
      · rw [show (indexOf l r.1).toNat + ((indexOf l r.2).toNat - (indexOf l r.1).toNat)
            = (indexOf l r.2).toNat from by omega]
        exact hgN
      · unfold covers at hcg
        omega
    · intro hall x hx
      rw [List.mem_range'_1] at hx
      have hb1 : x - 1 < l.length := by omega
      have hb2 : x < l.length := by omega
      obtain ⟨ena, ha⟩ : ∃ a, l[x - 1]? = some a := ⟨l[x - 1], List.getElem?_eq_getElem hb1⟩
      obtain ⟨enb, hb⟩ : ∃ b, l[x]? = some b := ⟨l[x], List.getElem?_eq_getElem hb2⟩
      rw [ha, hb]
      show (ena.1.2 + 1 == enb.1.1) = true
      rw [beq_iff_eq]
      by_contra hne
      have hsort : ena.1.2 < enb.1.1 := sorted_get_lt hI (by omega) ha hb
      have h_enf_le : enf.1.2 ≤ ena.1.2 := by
        rcases Nat.lt_or_ge (indexOf l r.1).toNat (x - 1) with hlt2 | hge2
        · have hs2 := sorted_get_lt hI hlt2 hfN ha
          have hw2 := wf_get hI ha
          omega
        · have heq : (indexOf l r.1).toNat = x - 1 := by omega
          rw [heq, ha] at hfN
          obtain rfl := Option.some.inj hfN
          exact le_rfl
      have h_enb_le : enb.1.1 ≤ eng.1.1 := by
        rcases Nat.lt_or_ge x (indexOf l r.2).toNat with hlt2 | hge2
        · have hs2 := sorted_get_lt hI hlt2 hb hgN
          have hw2 := wf_get hI hb
          omega
        · have heq : x = (indexOf l r.2).toNat := by omega
          rw [← heq, hb] at hgN
          obtain rfl := Option.some.inj hgN
          exact le_rfl
      unfold covers at hcf hcg
      obtain ⟨enc, hmemc, hcovc⟩ := hall (ena.1.2 + 1) (by omega) (by omega)
      obtain ⟨j, hj⟩ := List.mem_iff_getElem?.mp hmemc
      unfold covers at hcovc
      rcases Nat.lt_or_ge j x with hjx | hjx
      · have hjle : enc.1.2 ≤ ena.1.2 := by
          rcases Nat.lt_or_ge j (x - 1) with hj2 | hj2
          · have hs2 := sorted_get_lt hI hj2 hj ha
            have hw2 := wf_get hI ha
            omega
          · have heq : j = x - 1 := by omega
            rw [heq, ha] at hj
            obtain rfl := Option.some.inj hj
            exact le_rfl
        omega
      · have hjge : enb.1.1 ≤ enc.1.1 := by
          rcases Nat.lt_or_ge x j with hj2 | hj2
          · have hs2 := sorted_get_lt hI hj2 hb hj
            have hw2 := wf_get hI hb
            omega
          · have heq : j = x := by omega
            rw [heq, hb] at hj
            obtain rfl := Option.some.inj hj
            exact le_rfl
        omega

/-- Entries strictly below a found index end before the searched key, and
entries from it on end at or after it. -/
theorem lower_found {l : List (REntry V)} (hI : Inv l) {s : Int}
    (h : 0 ≤ indexOf l s) :
    (∀ i : Nat, ∀ en : REntry V, l[i]? = some en → i < (indexOf l s).toNat →
      en.1.2 < s) ∧
    (∀ i : Nat, ∀ en : REntry V, l[i]? = some en → (indexOf l s).toNat ≤ i →
      s ≤ en.1.2) := by
  obtain ⟨enf, hfN, hcf⟩ := indexOf_found hI h
  unfold covers at hcf
  constructor
  · intro i en hen hi
    have := sorted_get_lt hI hi hen hfN
    omega
  · intro i en hen hi
    rcases Nat.eq_or_lt_of_le hi with heq | hlt
    · rw [heq, hen] at hfN
      obtain rfl := Option.some.inj hfN
      omega
    · have := sorted_get_lt hI hlt hfN hen
      have := wf_get hI hen
      omega

/-- Entries strictly above a found index start after the searched key, and
entries up to it start at or before it. -/
theorem upper_found {l : List (REntry V)} (hI : Inv l) {e : Int}
    (h : 0 ≤ indexOf l e) :
    (∀ i : Nat, ∀ en : REntry V, l[i]? = some en → (indexOf l e).toNat < i →
      e < en.1.1) ∧
    (∀ i : Nat, ∀ en : REntry V, l[i]? = some en → i ≤ (indexOf l e).toNat →
      en.1.1 ≤ e) := by
  obtain ⟨eng, hgN, hcg⟩ := indexOf_found hI h
  unfold covers at hcg
  constructor
  · intro i en hen hi
    have := sorted_get_lt hI hi hgN hen
    omega
  · intro i en hen hi
    rcases Nat.eq_or_lt_of_le hi with heq | hlt
    · rw [← heq, hen] at hgN
      obtain rfl := Option.some.inj hgN
      omega
    · have := sorted_get_lt hI hlt hen hgN
      have := wf_get hI hen
      omega

/-- For an uncovered key, entries from its insertion index on start after
it, and entries before it end (and hence start) before it. -/
theorem upper_notfound {l : List (REntry V)} (hI : Inv l) {e : Int}
    (hnc : ∀ en ∈ l, ¬ covers en.1 e) :
    (∀ i : Nat, ∀ en : REntry V, l[i]? = some en → insPos l e ≤ i → e < en.1.1) ∧
    (∀ i : Nat, ∀ en : REntry V, l[i]? = some en → i < insPos l e → en.1.1 < e) := by
  have hs := insPos_split hI e
  constructor
  · intro i en hen hi
    have h2 := hs.2 i hi en hen
    have := hnc en (List.getElem?_mem hen)
    unfold covers at this
    omega
  · intro i en hen hi
    have h1 := hs.1 i hi en hen
    have := wf_get hI hen
    omega

/-- Exclusion and inclusion bounds on both sides combine into the index
characterization of intersection. -/
theorem char_of_bounds {l : List (REntry V)} {r : SRange} {a b : Nat}
    (hlow1 : ∀ i : Nat, ∀ en : REntry V, l[i]? = some en → i < a → en.1.2 < r.1)
    (hlow2 : ∀ i : Nat, ∀ en : REntry V, l[i]? = some en → a ≤ i → r.1 ≤ en.1.2)
    (hup1 : ∀ i : Nat, ∀ en : REntry V, l[i]? = some en → b < i → r.2 < en.1.1)
    (hup2 : ∀ i : Nat, ∀ en : REntry V, l[i]? = some en → i ≤ b → en.1.1 ≤ r.2) :
    ∀ i : Nat, ∀ en : REntry V, l[i]? = some en → (intersects en.1 r ↔ a ≤ i ∧ i ≤ b) := by
  intro i en hen
  unfold intersects
  constructor
  · intro hint
    constructor
    · by_contra hcon
      have := hlow1 i en hen (by omega)
      omega
    · by_contra hcon
      have := hup1 i en hen (by omega)
      omega
  · intro ⟨hai, hib⟩
    exact ⟨hup2 i en hen hib, hlow2 i en hen hai⟩

/-- The full characterization of indicesOf: none exactly when no entry
intersects the range, otherwise an in-bounds inclusive index window holding
exactly the intersecting entries. -/
theorem indicesOf_spec {l : List (REntry V)} (hI : Inv l) {r : SRange}
    (hr : r.1 ≤ r.2) :
    (indicesOf l r = none ∧ ∀ en ∈ l, ¬ intersects en.1 r)
    ∨ ∃ a b : Nat, indicesOf l r = some ((a : Int), (b : Int)) ∧ a ≤ b ∧
        b < l.length ∧
        ∀ i : Nat, ∀ en : REntry V, l[i]? = some en →
          (intersects en.1 r ↔ a ≤ i ∧ i ≤ b) := by
  by_cases hse : r.1 = r.2
  · by_cases hF : indexOf l r.1 < 0
    · left
      constructor
      · simp only [indicesOf]
        rw [if_pos hse, if_pos ⟨hF, rfl⟩]
      · intro en hen hint
        have hnc := (indexOf_neg hI hF).2
        have hwf := hI.wf en hen
        unfold intersects at hint
        exact hnc en hen (by unfold covers; omega)
    · right
      have hF2 : 0 ≤ indexOf l r.1 := by omega
      refine ⟨(indexOf l r.1).toNat, (indexOf l r.1).toNat, ?_, le_rfl, ?_, ?_⟩
      · simp only [indicesOf]
        rw [if_pos hse, if_neg (by omega)]
        rw [if_neg hF, if_neg hF]
        have : ((indexOf l r.1).toNat : Int) = indexOf l r.1 := by omega
        rw [this]
      · obtain ⟨en, hen, _⟩ := indexOf_found hI hF2
        exact (List.getElem?_eq_some.mp hen).1
      · have hl := lower_found hI hF2
        have hF2b : 0 ≤ indexOf l r.2 := by rw [← hse]; exact hF2
        have hu := upper_found hI hF2b
        have hix : indexOf l r.2 = indexOf l r.1 := by rw [hse]
        rw [hix] at hu
        exact char_of_bounds hl.1 hl.2 hu.1 hu.2
  · by_cases hF : indexOf l r.1 < 0
    · by_cases hG : indexOf l r.2 < 0
      · have hf := indexOf_neg hI hF
        have hg := indexOf_neg hI hG
        by_cases hFG : indexOf l r.1 = indexOf l r.2
        · left
          constructor
          · simp only [indicesOf]
            rw [if_neg hse, if_pos ⟨hF, hFG⟩]
          · intro en hen hint
            have hwf := hI.wf en hen
            unfold intersects at hint
            have hnsns : insPos l r.1 = insPos l r.2 := by
              have := hFG
              rw [hf.1, hg.1] at this
              exact_mod_cast jsNot_inj this
            refine absurd hnsns ?_
            refine (insPos_ne_iff hI hr hf.2 hg.2).mpr ?_
            refine ⟨max r.1 en.1.1, le_max_left _ _, by omega, en, hen, ?_⟩
            unfold covers
            constructor
            · exact le_max_right _ _
            · omega
        · right
          have hlt : insPos l r.1 < insPos l r.2 := by
            have hne : insPos l r.1 ≠ insPos l r.2 := by
              intro hcc
              exact hFG (by rw [hf.1, hg.1, hcc])
            rcases Nat.lt_or_ge (insPos l r.1) (insPos l r.2) with h | h
            · exact h
            · exfalso
              have hlt2 : insPos l r.2 < insPos l r.1 := by omega
              have hb2 : insPos l r.2 < l.length :=
                lt_of_lt_of_le hlt2 (l.countP_le_length _)
              obtain ⟨en, hen⟩ : ∃ en, l[insPos l r.2]? = some en :=
                ⟨l[insPos l r.2], List.getElem?_eq_getElem hb2⟩
              have h1 := (insPos_split hI r.1).1 (insPos l r.2) hlt2 en hen
              have h2 := (insPos_split hI r.2).2 (insPos l r.2) le_rfl en hen
              omega
          refine ⟨insPos l r.1, insPos l r.2 - 1, ?_, by omega, ?_, ?_⟩
          · simp only [indicesOf]
            rw [if_neg hse, if_neg (by intro hcc; exact hFG hcc.2)]
            rw [if_pos hF, if_pos hG, hf.1, hg.1, jsNot_jsNot, jsNot_jsNot]
            have h2 : ((insPos l r.2 - 1 : Nat) : Int) = (insPos l r.2 : Int) - 1 := by
              omega
            rw [h2]
          · have := l.countP_le_length (fun en => decide (en.1.2 < r.2))
            unfold insPos at hlt ⊢
            omega
          · have hl := insPos_split hI r.1
            have hu := upper_notfound hI hg.2
            refine char_of_bounds (fun i en hen hi => hl.1 i hi en hen)
              (fun i en hen hi => hl.2 i hi en hen)
              (fun i en hen hi => hu.1 i en hen (by omega))
              (fun i en hen hi => le_of_lt (hu.2 i en hen (by omega)))
      · right
        have hg0 : 0 ≤ indexOf l r.2 := by omega
        have hf := indexOf_neg hI hF
        obtain ⟨eng, hgN, hcg⟩ := indexOf_found hI hg0
        have hab : insPos l r.1 ≤ (indexOf l r.2).toNat := by
          by_contra hcon
          have h1 := (insPos_split hI r.1).1 (indexOf l r.2).toNat (by omega) eng hgN
          unfold covers at hcg
          omega
        refine ⟨insPos l r.1, (indexOf l r.2).toNat, ?_, hab, ?_, ?_⟩
        · simp only [indicesOf]
          rw [if_neg hse, if_neg (by intro hcc; omega)]
          rw [if_pos hF, if_neg (by omega), hf.1, jsNot_jsNot]
          have h2 : (((indexOf l r.2).toNat : Nat) : Int) = indexOf l r.2 := by omega
          rw [h2]
        · exact (List.getElem?_eq_some.mp hgN).1
        · have hl := insPos_split hI r.1
          have hu := upper_found hI hg0
          exact char_of_bounds (fun i en hen hi => hl.1 i hi en hen)
            (fun i en hen hi => hl.2 i hi en hen) hu.1 hu.2
    · have hf0 : 0 ≤ indexOf l r.1 := by omega
      obtain ⟨enf, hfN, hcf⟩ := indexOf_found hI hf0
      by_cases hG : indexOf l r.2 < 0
      · right
        have hg := indexOf_neg hI hG
        have hab : (indexOf l r.1).toNat < insPos l r.2 := by
          by_contra hcon
          have h2 := (insPos_split hI r.2).2 (indexOf l r.1).toNat (by omega) enf hfN
          unfold covers at hcf
          exact hg.2 enf (List.getElem?_mem hfN) (by unfold covers; omega)
        refine ⟨(indexOf l r.1).toNat, insPos l r.2 - 1, ?_, by omega, ?_, ?_⟩
        · simp only [indicesOf]
          rw [if_neg hse, if_neg (by intro hcc; omega)]
          rw [if_neg hF, if_pos hG, hg.1, jsNot_jsNot]
          have h1 : (((indexOf l r.1).toNat : Nat) : Int) = indexOf l r.1 := by omega
          have h2 : ((insPos l r.2 - 1 : Nat) : Int) = (insPos l r.2 : Int) - 1 := by
            omega
          rw [h1, h2]
        · have := l.countP_le_length (fun en => decide (en.1.2 < r.2))
          unfold insPos at hab ⊢
          omega
        · have hl := lower_found hI hf0
          have hu := upper_notfound hI hg.2
          exact char_of_bounds hl.1 hl.2
            (fun i en hen hi => hu.1 i en hen (by omega))
            (fun i en hen hi => le_of_lt (hu.2 i en hen (by omega)))
      · right
        have hg0 : 0 ≤ indexOf l r.2 := by omega
        obtain ⟨eng, hgN, hcg⟩ := indexOf_found hI hg0
        have hab : (indexOf l r.1).toNat ≤ (indexOf l r.2).toNat := by
          by_contra hcon
          have := sorted_get_lt hI (show (indexOf l r.2).toNat < (indexOf l r.1).toNat
            by omega) hgN hfN
          unfold covers at hcf hcg
          omega
        refine ⟨(indexOf l r.1).toNat, (indexOf l r.2).toNat, ?_, hab, ?_, ?_⟩
        · simp only [indicesOf]
          rw [if_neg hse, if_neg (by intro hcc; omega)]
          rw [if_neg hF, if_neg (by omega)]
          have h1 : (((indexOf l r.1).toNat : Nat) : Int) = indexOf l r.1 := by omega
          have h2 : (((indexOf l r.2).toNat : Nat) : Int) = indexOf l r.2 := by omega
          rw [h1, h2]
        · exact (List.getElem?_eq_some.mp hgN).1
        · have hl := lower_found hI hf0
          have hu := upper_found hI hg0
          exact char_of_bounds hl.1 hl.2 hu.1 hu.2

/-- Setting below an index leaves the prefix before that index unchanged. -/
theorem take_set_of_le {α : Type} {l : List α} {i n : Nat} {x : α} (h : n ≤ i) :
    (l.set i x).take n = l.take n := by
  apply List.ext_getElem?
  intro m
  rw [List.getElem?_take, List.getElem?_take]
  by_cases hm : m < n
  · rw [if_pos hm, if_pos hm, List.getElem?_set, if_neg (by omega)]
  · rw [if_neg hm, if_neg hm]

/-- An in-bounds set is a take, the new element, and a drop. -/
theorem set_decomp {α : Type} {l : List α} {i : Nat} (h : i < l.length) (x : α) :
    l.set i x = l.take i ++ x :: l.drop (i + 1) := by
  apply List.ext_getElem?
  intro m
  rw [List.getElem?_set, List.getElem?_append, List.length_take]
  rcases Nat.lt_trichotomy m i with hmi | hmi | hmi
  · rw [if_neg (by omega), if_pos (by omega), List.getElem?_take, if_pos hmi]
  · subst hmi
    rw [if_pos rfl, if_pos h, if_neg (by omega)]
    have h0 : m - min m l.length = 0 := by omega
    rw [h0, List.getElem?_cons_zero]
  · rw [if_neg (by omega), if_neg (by omega)]
    have h1 : m - min i l.length = (m - i - 1) + 1 := by omega
    rw [h1, List.getElem?_cons_succ, List.getElem?_drop]
    congr 1
    omega

/-- Setting at the seam of an append replaces the first element after it. -/
theorem set_middle {α : Type} {X Y : List α} {y x : α} :
    (X ++ y :: Y).set X.length x = X ++ x :: Y := by
  apply List.ext_getElem?
  intro m
  rw [List.getElem?_set, List.getElem?_append, List.getElem?_append]
  rcases Nat.lt_trichotomy m X.length with hm | hm | hm
  · rw [if_neg (by omega), if_pos hm, if_pos hm]
  · subst hm
    rw [if_pos rfl, if_pos (by simp only [List.length_append, List.length_cons]; omega),
      if_neg (by omega), Nat.sub_self, List.getElem?_cons_zero]
  · rw [if_neg (by omega), if_neg (by omega), if_neg (by omega)]
    have h1 : m - X.length = (m - X.length - 1) + 1 := by omega
    rw [h1, List.getElem?_cons_succ, List.getElem?_cons_succ]

/-- Arm of deleteFromSingleRange: the delete range swallows the target. -/
theorem dfsr_remove {l : List (REntry V)} {t : Nat} {en : REntry V} {r : SRange}
    (hen : l[t]? = some en) (h1 : r.1 ≤ en.1.1) (h2 : r.2 ≥ en.1.2) :
    deleteFromSingleRange l t r = l.take t ++ l.drop (t + 1) := by
  simp only [deleteFromSingleRange, hen]
  rw [if_pos h1, if_pos h2]

/-- Arm of deleteFromSingleRange: the delete range covers the front of the
target, whose start is trimmed up. -/
theorem dfsr_trimStart {l : List (REntry V)} {t : Nat} {en : REntry V} {r : SRange}
    (hen : l[t]? = some en) (h1 : r.1 ≤ en.1.1) (h2 : ¬ r.2 ≥ en.1.2) :
    deleteFromSingleRange l t r = l.set t ((r.2 + 1, en.1.2), en.2) := by
  simp only [deleteFromSingleRange, hen]
  rw [if_pos h1, if_neg h2]

/-- Arm of deleteFromSingleRange: the delete range covers the back of the
target, whose end is trimmed down. -/
theorem dfsr_trimEnd {l : List (REntry V)} {t : Nat} {en : REntry V} {r : SRange}
    (hen : l[t]? = some en) (h1 : ¬ r.1 ≤ en.1.1) (h2 : r.2 ≥ en.1.2) :
    deleteFromSingleRange l t r = l.set t ((en.1.1, r.1 - 1), en.2) := by
  simp only [deleteFromSingleRange, hen]
  rw [if_neg h1, if_pos h2]

/-- Arm of deleteFromSingleRange: the delete range is interior, splitting
the target in two. -/
theorem dfsr_split {l : List (REntry V)} {t : Nat} {en : REntry V} {r : SRange}
    (hen : l[t]? = some en) (h1 : ¬ r.1 ≤ en.1.1) (h2 : ¬ r.2 ≥ en.1.2) :
    deleteFromSingleRange l t r =
      l.take t ++ ((en.1.1, r.1 - 1), en.2) :: ((r.2 + 1, en.1.2), en.2) ::
        l.drop (t + 1) := by
  simp only [deleteFromSingleRange, hen]
  rw [if_neg h1, if_neg h2]

/-- Dropping at the seam of an append yields the second part. -/
theorem drop_append_at {α : Type} {X Y : List α} {n : Nat} (h : X.length = n) :
    (X ++ Y).drop n = Y := by
  subst h
  exact List.drop_left X Y

/-- set_middle with the seam position given as an equation. -/
theorem set_middle_at {α : Type} {X Y : List α} {y x : α} {n : Nat}
    (h : X.length = n) : (X ++ y :: Y).set n x = X ++ x :: Y := by
  subst h
  exact set_middle

/-- A take of a longer take glued to anything is the shorter take. -/
theorem take_append_of_take {α : Type} {l Y : List α} {m n : Nat}
    (h1 : n ≤ m) (h2 : m ≤ l.length) : (l.take m ++ Y).take n = l.take n := by
  rw [List.take_append_of_le_length (by rw [List.length_take]; omega), List.take_take]
  congr 1
  omega

/-- deleteFromSingleRange applied at the last position of a take glued to a
rest, when the delete range reaches the entry's end: the entry is dropped or
end-trimmed in place. -/
theorem dfsr_at_take_seam {l : List (REntry V)} {a : Nat} (halen : a < l.length)
    {ea : REntry V} (hea : l[a]? = some ea) {rest : List (REntry V)} {r : SRange}
    (hae : r.2 ≥ ea.1.2) :
    deleteFromSingleRange (l.take (a + 1) ++ rest) a r =
      l.take a ++
        ((if ea.1.1 < r.1 then [((ea.1.1, r.1 - 1), ea.2)] else []) ++ rest) := by
  have hlen_takea : (l.take a).length = a := by rw [List.length_take]; omega
  have hlen_takea1 : (l.take (a + 1)).length = a + 1 := by rw [List.length_take]; omega
  have hgeta : (l.take (a + 1) ++ rest)[a]? = some ea := by
    rw [List.getElem?_append, if_pos (by omega), List.getElem?_take, if_pos (by omega)]
    exact hea
  have hsucc : l.take (a + 1) = l.take a ++ [ea] := by
    rw [List.take_succ, hea]
    rfl
  by_cases hF : r.1 ≤ ea.1.1
  · rw [dfsr_remove hgeta hF hae, if_neg (by omega), List.nil_append,
      take_append_of_take (by omega) (by omega), drop_append_at hlen_takea1]
  · rw [dfsr_trimEnd hgeta hF hae, if_pos (by omega), hsucc, List.append_assoc,
      List.singleton_append, set_middle_at hlen_takea, List.singleton_append]

/-- The uniform shape of a successful delete: the window of intersecting
entries is cut out, with a start-trimmed copy of the first entry kept when
the delete range begins inside it and an end-trimmed copy of the last entry
kept when the delete range ends inside it. -/
theorem delEntries_some_form {l : List (REntry V)} (hI : Inv l) {r : SRange}
    (hr : r.1 ≤ r.2) {a b : Nat} (hab : a ≤ b) (hblen : b < l.length)
    (hAB : indicesOf l r = some ((a : Int), (b : Int)))
    (hchar : ∀ i : Nat, ∀ en : REntry V, l[i]? = some en →
      (intersects en.1 r ↔ a ≤ i ∧ i ≤ b))
    {ea eb : REntry V} (hea : l[a]? = some ea) (heb : l[b]? = some eb) :
    (delEntries l r).2 =
      l.take a ++
      ((if ea.1.1 < r.1 then [((ea.1.1, r.1 - 1), ea.2)] else []) ++
       ((if r.2 < eb.1.2 then [((r.2 + 1, eb.1.2), eb.2)] else []) ++
        l.drop (b + 1))) := by
  have hIa : intersects ea.1 r := (hchar a ea hea).mpr ⟨le_rfl, hab⟩
  have hIb : intersects eb.1 r := (hchar b eb heb).mpr ⟨hab, le_rfl⟩
  unfold intersects at hIa hIb
  simp only [delEntries, hAB]
  have h1 : ((b : Int)).toNat = b := by omega
  have h2 : ((a : Int) + 1).toNat = a + 1 := by omega
  rcases Nat.eq_or_lt_of_le hab with heq | hlt
  · subst heq
    rw [hea] at heb
    obtain rfl := Option.some.inj heb
    rw [h1, h2]
    have h4 : ((a : Int) - ((a : Int) + 1)).toNat = 0 := by omega
    rw [h4, Nat.add_zero, List.take_append_drop,
      if_neg (show ¬ ((a : Int) ≠ (a : Int)) by omega)]
    by_cases hF : r.1 ≤ ea.1.1 <;> by_cases hB : r.2 ≥ ea.1.2
    · rw [dfsr_remove hea hF hB, if_neg (by omega), if_neg (by omega),
        List.nil_append, List.nil_append]
    · rw [dfsr_trimStart hea hF hB, if_neg (by omega), if_pos (by omega),
        List.nil_append, List.singleton_append, set_decomp hblen]
    · rw [dfsr_trimEnd hea hF hB, if_pos (by omega), if_neg (by omega),
        List.nil_append, List.singleton_append, set_decomp hblen]
    · rw [dfsr_split hea hF hB, if_pos (by omega), if_pos (by omega),
        List.singleton_append, List.singleton_append]
  · have hb1len : b - 1 < l.length := by omega
    obtain ⟨em, hem⟩ : ∃ em, l[b - 1]? = some em :=
      ⟨l[b - 1], List.getElem?_eq_getElem hb1len⟩
    have hIm := (hchar (b - 1) em hem).mpr ⟨by omega, by omega⟩
    unfold intersects at hIm
    have hsortmb := sorted_get_lt hI (show b - 1 < b by omega) hem heb
    have hsb : r.1 ≤ eb.1.1 := by omega
    obtain ⟨ep, hep⟩ : ∃ ep, l[a + 1]? = some ep :=
      ⟨l[a + 1], List.getElem?_eq_getElem (by omega)⟩
    have hIp := (hchar (a + 1) ep hep).mpr ⟨by omega, by omega⟩
    unfold intersects at hIp
    have hsortap := sorted_get_lt hI (show a < a + 1 by omega) hea hep
    have hae : r.2 ≥ ea.1.2 := by omega
    have hlen_takeb : (l.take b).length = b := by rw [List.length_take]; omega
    rw [h1, h2]
    have h3 : a + 1 + ((b : Int) - ((a : Int) + 1)).toNat = b := by omega
    have h2a : ((a : Int)).toNat = a := by omega
    rw [h3, if_pos (show (a : Int) ≠ (b : Int) by omega), h2a]
    by_cases hBc : r.2 ≥ eb.1.2
    · rw [dfsr_remove heb hsb hBc, if_neg (show ¬ r.2 < eb.1.2 by omega),
        List.nil_append, take_append_of_take (by omega) (by omega),
        drop_append_at hlen_takeb, dfsr_at_take_seam (by omega) hea hae]
    · rw [dfsr_trimStart heb hsb hBc, if_pos (show r.2 < eb.1.2 by omega),
        take_set_of_le (by omega), set_decomp hblen, drop_append_at hlen_takeb,
        List.singleton_append, dfsr_at_take_seam (by omega) hea hae]

theorem lookup_nil {k : Int} : lookup ([] : List (REntry V)) k = none := rfl

theorem lookup_cons {en : REntry V} {t : List (REntry V)} {k : Int} :
    lookup (en :: t) k = if covers en.1 k then some en.2 else lookup t k := by
  by_cases h : covers en.1 k <;> simp [lookup, List.find?_cons, h]

theorem lookup_single {en : REntry V} {k : Int} :
    lookup [en] k = if covers en.1 k then some en.2 else none := by
  rw [lookup_cons, lookup_nil]

theorem lookup_append {l1 l2 : List (REntry V)} {k : Int} :
    lookup (l1 ++ l2) k = (lookup l1 k).or (lookup l2 k) := by
  unfold lookup
  rw [List.find?_append]
  cases l1.find? fun en => decide (covers en.1 k) <;> rfl

theorem lookup_eq_none_of {l : List (REntry V)} {k : Int}
    (h : ∀ en ∈ l, ¬ covers en.1 k) : lookup l k = none :=
  lookup_eq_none_iff.mpr fun ⟨en, hen, hc⟩ => h en hen hc

/-- The invariant restricts to any take. -/
theorem Inv.take {l : List (REntry V)} (h : Inv l) (n : Nat) : Inv (l.take n) := by
  have hc := h.chain
  rw [← List.take_append_drop n l] at hc
  obtain ⟨h1, _, _⟩ := List.chain'_append.mp hc
  exact ⟨fun en hen => h.wf en (List.take_subset n l hen), h1⟩

/-- The invariant restricts to any drop. -/
theorem Inv.drop {l : List (REntry V)} (h : Inv l) (n : Nat) : Inv (l.drop n) := by
  have hc := h.chain
  rw [← List.take_append_drop n l] at hc
  obtain ⟨_, h2, _⟩ := List.chain'_append.mp hc
  exact ⟨fun en hen => h.wf en (List.drop_subset n l hen), h2⟩

theorem Inv_nil : Inv ([] : List (REntry V)) := ⟨by simp, List.chain'_nil⟩

theorem Inv_single {en : REntry V} (h : en.1.1 ≤ en.1.2) : Inv [en] :=
  ⟨by simpa, List.chain'_singleton en⟩

/-- Two invariant lists concatenate when their seam satisfies the entry
relation. -/
theorem Inv_append {l1 l2 : List (REntry V)} (h1 : Inv l1) (h2 : Inv l2)
    (hj : ∀ x ∈ l1.getLast?, ∀ y ∈ l2.head?, EntryRel x y) : Inv (l1 ++ l2) :=
  ⟨fun en hen => (List.mem_append.mp hen).elim (h1.wf en) (h2.wf en),
   List.chain'_append.mpr ⟨h1.chain, h2.chain, hj⟩⟩

/-- Two invariant lists separated by a nonempty integer gap concatenate. -/
theorem Inv_append_sep {X Y : List (REntry V)} (hX : Inv X) (hY : Inv Y)
    {s e : Int} (hse : s ≤ e)
    (hXe : ∀ en ∈ X, en.1.2 < s) (hYs : ∀ en ∈ Y, e < en.1.1) : Inv (X ++ Y) := by
  refine Inv_append hX hY ?_
  intro x hx y hy
  have h1 := hXe x (List.mem_of_mem_getLast? hx)
  have h2 := hYs y (List.mem_of_mem_head? hy)
  exact ⟨by omega, fun hc => absurd hc (by omega)⟩

/-- No key inside the separating gap is covered by the concatenation. -/
theorem not_memK_sep {X Y : List (REntry V)} {s e k : Int} (hk1 : s ≤ k) (hk2 : k ≤ e)
    (hXe : ∀ en ∈ X, en.1.2 < s) (hYs : ∀ en ∈ Y, e < en.1.1) :
    ¬ memK (X ++ Y) k := by
  intro ⟨en, hen, hc⟩
  unfold covers at hc
  rcases List.mem_append.mp hen with h | h
  · have := hXe en h
    omega
  · have := hYs en h
    omega

/-- The entry relation holds between any two consecutive fetched entries. -/
theorem chain_get {l : List (REntry V)} (hI : Inv l) {i : Nat} {x y : REntry V}
    (hx : l[i]? = some x) (hy : l[i + 1]? = some y) : EntryRel x y := by
  obtain ⟨hi, hx2⟩ := List.getElem?_eq_some.mp hx
  obtain ⟨hi2, hy2⟩ := List.getElem?_eq_some.mp hy
  have hrel := List.chain'_iff_get.mp hI.chain i (by omega)
  rw [List.get_eq_getElem, List.get_eq_getElem] at hrel
  rw [← hx2, ← hy2]
  exact hrel

/-- The last element of a nonempty take is the entry just below the cut. -/
theorem getLast?_take_eq {α : Type} {l : List α} {a : Nat} (ha : a ≤ l.length) {x : α}
    (hx : (l.take a).getLast? = some x) : 1 ≤ a ∧ l[a - 1]? = some x := by
  rw [List.getLast?_eq_getElem?, List.getElem?_take, List.length_take] at hx
  by_cases h0 : min a l.length - 1 < a
  · rw [if_pos h0] at hx
    refine ⟨by omega, ?_⟩
    have hmin : min a l.length - 1 = a - 1 := by omega
    rw [hmin] at hx
    exact hx
  · rw [if_neg h0] at hx
    cases hx

/-- Invariant, clearing, and preservation properties of the uniform deleted
shape: prefix, optional start-trimmed first entry, optional end-trimmed last
entry, suffix. -/
theorem del_form_props {l : List (REntry V)} (hI : Inv l) {r : SRange} (hr : r.1 ≤ r.2)
    {a b : Nat} (hab : a ≤ b) (hblen : b < l.length)
    {ea eb : REntry V} (hea : l[a]? = some ea) (heb : l[b]? = some eb)
    (hIa : ea.1.1 ≤ r.2 ∧ r.1 ≤ ea.1.2) (hIb : eb.1.1 ≤ r.2 ∧ r.1 ≤ eb.1.2)
    (htake_ends : ∀ en ∈ l.take a, en.1.2 < r.1)
    (hdrop_starts : ∀ en ∈ l.drop (b + 1), r.2 < en.1.1)
    {F B : List (REntry V)}
    (hFdef : F = if ea.1.1 < r.1 then [((ea.1.1, r.1 - 1), ea.2)] else [])
    (hBdef : B = if r.2 < eb.1.2 then [((r.2 + 1, eb.1.2), eb.2)] else []) :
    Inv (l.take a ++ (F ++ (B ++ l.drop (b + 1)))) ∧
    (∀ k : Int, r.1 ≤ k → k ≤ r.2 →
      ¬ memK (l.take a ++ (F ++ (B ++ l.drop (b + 1)))) k) ∧
    (∀ k : Int, k < r.1 ∨ r.2 < k →
      lookup (l.take a ++ (F ++ (B ++ l.drop (b + 1)))) k = lookup l k) := by
  have halen : a < l.length := by omega
  have hF_ends : ∀ en ∈ F, en.1.2 < r.1 := by
    rw [hFdef]
    split_ifs with h
    · intro en hen
      rw [List.mem_singleton] at hen
      subst hen
      show r.1 - 1 < r.1
      omega
    · simp
  have hF_wf : Inv F := by
    rw [hFdef]
    split_ifs with h
    · exact Inv_single (show ea.1.1 ≤ r.1 - 1 by omega)
    · exact Inv_nil
  have hB_starts : ∀ en ∈ B, r.2 < en.1.1 := by
    rw [hBdef]
    split_ifs with h
    · intro en hen
      rw [List.mem_singleton] at hen
      subst hen
      show r.2 < r.2 + 1
      omega
    · simp
  have hB_wf : Inv B := by
    rw [hBdef]
    split_ifs with h
    · exact Inv_single (show r.2 + 1 ≤ eb.1.2 by omega)
    · exact Inv_nil
  have hInvX : Inv (l.take a ++ F) := by
    refine Inv_append (hI.take a) hF_wf ?_
    intro x hx y hy
    obtain ⟨ha1, hx2⟩ := getLast?_take_eq (by omega) hx
    rw [hFdef] at hy
    split_ifs at hy with hFc
    · rw [List.head?_cons] at hy
      obtain rfl := Option.some.inj hy
      have hrel := chain_get hI hx2
        (show l[a - 1 + 1]? = some ea by rw [show a - 1 + 1 = a by omega]; exact hea)
      unfold EntryRel at hrel ⊢
      exact ⟨hrel.1, fun hadj => hrel.2 hadj⟩
    · cases hy
  have hInvY : Inv (B ++ l.drop (b + 1)) := by
    refine Inv_append hB_wf (hI.drop (b + 1)) ?_
    intro x hx y hy
    rw [hBdef] at hx
    split_ifs at hx with hBc
    · rw [List.getLast?_singleton] at hx
      obtain rfl := Option.some.inj hx
      rw [List.head?_drop] at hy
      have hrel := chain_get hI heb hy
      unfold EntryRel at hrel ⊢
      exact ⟨hrel.1, fun hadj => hrel.2 hadj⟩
    · cases hx
  have hX_ends : ∀ en ∈ l.take a ++ F, en.1.2 < r.1 := by
    intro en hen
    rcases List.mem_append.mp hen with h | h
    · exact htake_ends en h
    · exact hF_ends en h
  have hY_starts : ∀ en ∈ B ++ l.drop (b + 1), r.2 < en.1.1 := by
    intro en hen
    rcases List.mem_append.mp hen with h | h
    · exact hB_starts en h
    · exact hdrop_starts en h
  refine ⟨?_, ?_, ?_⟩
  · have h := Inv_append_sep hInvX hInvY hr hX_ends hY_starts
    rwa [List.append_assoc] at h
  · intro k hk1 hk2
    have h := not_memK_sep hk1 hk2 hX_ends hY_starts
    rwa [List.append_assoc] at h
  · intro k hk
    rw [lookup_append, lookup_append, lookup_append]
    rcases hk with hkl | hkr
    · have hB_none : lookup B k = none := lookup_eq_none_of fun en hen hc => by
        have := hB_starts en hen
        unfold covers at hc
        omega
      have hD_none : lookup (l.drop (b + 1)) k = none := lookup_eq_none_of
        fun en hen hc => by
          have := hdrop_starts en hen
          unfold covers at hc
          omega
      rw [hB_none, hD_none, Option.none_or, Option.or_none]
      conv_rhs => rw [← List.take_append_drop a l]
      rw [lookup_append]
      have hdropa : l.drop a = ea :: l.drop (a + 1) := by
        rw [List.drop_eq_getElem_cons halen]
        congr 1
        obtain ⟨hh, heq⟩ := List.getElem?_eq_some.mp hea
        exact heq
      rw [hdropa, lookup_cons]
      have hrest_none : lookup (l.drop (a + 1)) k = none := lookup_eq_none_of
        fun en hen hc => by
          obtain ⟨i, hi⟩ := List.mem_iff_getElem?.mp hen
          rw [List.getElem?_drop] at hi
          have hs := sorted_get_lt hI (show a < a + 1 + i by omega) hea hi
          unfold covers at hc
          omega
      rw [hrest_none]
      congr 1
      rw [hFdef]
      by_cases hFc : ea.1.1 < r.1
      · rw [if_pos hFc, lookup_single]
        have hiff : covers ((ea.1.1, r.1 - 1) : SRange) k ↔ covers ea.1 k := by
          unfold covers
          constructor <;> intro h <;> constructor <;> omega
        rw [if_congr hiff rfl rfl]
      · rw [if_neg hFc, lookup_nil, if_neg (show ¬ covers ea.1 k from fun hc => by
          unfold covers at hc
          omega)]
    · have hT_none : lookup (l.take a) k = none := lookup_eq_none_of
        fun en hen hc => by
          have := htake_ends en hen
          unfold covers at hc
          omega
      have hF_none : lookup F k = none := lookup_eq_none_of fun en hen hc => by
        have := hF_ends en hen
        unfold covers at hc
        omega
      rw [hT_none, hF_none, Option.none_or, Option.none_or]
      conv_rhs => rw [← List.take_append_drop (b + 1) l]
      rw [lookup_append]
      have htb : l.take (b + 1) = l.take b ++ [eb] := by
        rw [List.take_succ, heb]
        rfl
      rw [htb, lookup_append]
      have htb_none : lookup (l.take b) k = none := lookup_eq_none_of
        fun en hen hc => by
          obtain ⟨i, hi⟩ := List.mem_iff_getElem?.mp hen
          rw [List.getElem?_take] at hi
          by_cases hib : i < b
          · rw [if_pos hib] at hi
            have hs := sorted_get_lt hI hib hi heb
            unfold covers at hc
            omega
          · rw [if_neg hib] at hi
            cases hi
      rw [htb_none, Option.none_or]
      congr 1
      rw [hBdef]
      by_cases hBc : r.2 < eb.1.2
      · rw [if_pos hBc, lookup_single]
        have hiff : covers ((r.2 + 1, eb.1.2) : SRange) k ↔ covers eb.1 k := by
          unfold covers
          constructor <;> intro h <;> constructor <;> omega
        rw [if_congr hiff rfl rfl, lookup_single]
      · rw [if_neg hBc, lookup_nil, lookup_single,
          if_neg (show ¬ covers eb.1 k from fun hc => by
            unfold covers at hc
            omega)]

/-- The semantic specification of the private delete: the result satisfies
the invariant, covers no key of the deleted range, preserves every other
key's association, and the returned flag reports whether the range
intersected anything. -/
theorem delEntries_spec {l : List (REntry V)} (hI : Inv l) {r : SRange}
    (hr : r.1 ≤ r.2) :
    Inv (delEntries l r).2 ∧
    (∀ k : Int, r.1 ≤ k → k ≤ r.2 → ¬ memK (delEntries l r).2 k) ∧
    (∀ k : Int, k < r.1 ∨ r.2 < k → lookup (delEntries l r).2 k = lookup l k) ∧
    ((delEntries l r).1 = true ↔ ∃ en ∈ l, intersects en.1 r) := by
  rcases indicesOf_spec hI hr with ⟨hnone, hnint⟩ | ⟨a, b, hAB, hab, hblen, hchar⟩
  · have hres : delEntries l r = (false, l) := by
      unfold delEntries
      rw [hnone]
    rw [hres]
    refine ⟨hI, ?_, fun k _ => rfl, ?_⟩
    · rintro k hk1 hk2 ⟨en, hen, hc⟩
      unfold covers at hc
      exact hnint en hen (by unfold intersects; omega)
    · constructor
      · intro h
        simp at h
      · rintro ⟨en, hen, hint⟩
        exact absurd hint (hnint en hen)
  · have halen : a < l.length := by omega
    obtain ⟨ea, hea⟩ : ∃ ea, l[a]? = some ea := ⟨l[a], List.getElem?_eq_getElem halen⟩
    obtain ⟨eb, heb⟩ : ∃ eb, l[b]? = some eb := ⟨l[b], List.getElem?_eq_getElem hblen⟩
    have hform := delEntries_some_form hI hr hab hblen hAB hchar hea heb
    have hIa := (hchar a ea hea).mpr ⟨le_rfl, hab⟩
    have hIb := (hchar b eb heb).mpr ⟨hab, le_rfl⟩
    unfold intersects at hIa hIb
    have htake_ends : ∀ en ∈ l.take a, en.1.2 < r.1 := by
      intro en hen
      obtain ⟨i, hi⟩ := List.mem_iff_getElem?.mp hen
      rw [List.getElem?_take] at hi
      by_cases hia : i < a
      · rw [if_pos hia] at hi
        have hni : ¬ intersects en.1 r := fun hint => by
          have := (hchar i en hi).mp hint
          omega
        unfold intersects at hni
        push_neg at hni
        by_cases hcase : en.1.1 ≤ r.2
        · exact hni hcase
        · exfalso
          have hs := sorted_get_lt hI hia hi hea
          have hw := wf_get hI hi
          omega
      · rw [if_neg hia] at hi
        cases hi
    have hdrop_starts : ∀ en ∈ l.drop (b + 1), r.2 < en.1.1 := by
      intro en hen
      obtain ⟨i, hi⟩ := List.mem_iff_getElem?.mp hen
      rw [List.getElem?_drop] at hi
      have hni : ¬ intersects en.1 r := fun hint => by
        have := (hchar (b + 1 + i) en hi).mp hint
        omega
      unfold intersects at hni
      push_neg at hni
      by_cases hcase : en.1.1 ≤ r.2
      · exfalso
        have hs := sorted_get_lt hI (show b < b + 1 + i by omega) heb hi
        have hw := wf_get hI hi
        have := hni hcase
        omega
      · omega
    have hprops := del_form_props hI hr hab hblen hea heb hIa hIb htake_ends
      hdrop_starts rfl rfl
    have hfst : (delEntries l r).1 = true := by
      unfold delEntries
      rw [hAB]
    refine ⟨?_, ?_, ?_, iff_of_true hfst
      ⟨ea, List.getElem?_mem hea, (hchar a ea hea).mpr ⟨le_rfl, hab⟩⟩⟩
    · rw [hform]
      exact hprops.1
    · rw [hform]
      exact hprops.2.1
    · rw [hform]
      exact hprops.2.2

/-- The element at the seam of an append-cons. -/
theorem getElem?_seam {α : Type} {X Y : List α} {x : α} {n : Nat} (h : X.length = n) :
    (X ++ x :: Y)[n]? = some x := by
  subst h
  rw [List.getElem?_append, if_neg (by omega), Nat.sub_self, List.getElem?_cons_zero]

/-- Merging at index zero never changes the list. -/
theorem mmwpe_zero [DecidableEq V] {l : List (REntry V)} :
    maybeMergeWithPreviousEntry l 0 = l := by
  simp [maybeMergeWithPreviousEntry]

/-- Merging applies when the previous entry is adjacent with an equal
value: the current entry is absorbed. -/
theorem mmwpe_merge [DecidableEq V] {l : List (REntry V)} {i : Nat} (hi : i ≠ 0)
    {cur previous : REntry V} (hcur : l[i]? = some cur)
    (hprev : l[i - 1]? = some previous)
    (hc : previous.1.2 + 1 = cur.1.1 ∧ previous.2 = cur.2) :
    maybeMergeWithPreviousEntry l i =
      l.take (i - 1) ++ ((previous.1.1, cur.1.2), previous.2) :: l.drop (i + 1) := by
  simp only [maybeMergeWithPreviousEntry, hcur, hprev]
  rw [if_neg hi, if_pos hc]

/-- Merging does nothing when the entries are not adjacent-equal. -/
theorem mmwpe_nomerge [DecidableEq V] {l : List (REntry V)} {i : Nat} (hi : i ≠ 0)
    {cur previous : REntry V} (hcur : l[i]? = some cur)
    (hprev : l[i - 1]? = some previous)
    (hc : ¬ (previous.1.2 + 1 = cur.1.1 ∧ previous.2 = cur.2)) :
    maybeMergeWithPreviousEntry l i = l := by
  simp only [maybeMergeWithPreviousEntry, hcur, hprev]
  rw [if_neg hi, if_neg hc]

/-- The drop of an append past the seam drops into the second part. -/
theorem drop_append_at2 {α : Type} {X Y : List α} {n m : Nat} (h : X.length = n) :
    (X ++ Y).drop (n + m) = Y.drop m := by
  apply List.ext_getElem?
  intro i
  rw [List.getElem?_drop, List.getElem?_drop, List.getElem?_append, if_neg (by omega)]
  congr 1
  omega

/-- The possible outcomes of the previous-entry merge applied at the seam
of a prefix of the base list and an inserted entry. -/
theorem mmwpe_at_seam [DecidableEq V] {l1 : List (REntry V)} {j : Nat}
    (hjlen : j ≤ l1.length) (C : REntry V) (S : List (REntry V)) :
    (j = 0 ∧ maybeMergeWithPreviousEntry (l1.take j ++ C :: S) j = l1.take j ++ C :: S)
    ∨ (1 ≤ j ∧ ∃ x : REntry V, l1[j - 1]? = some x ∧
        ((x.1.2 + 1 = C.1.1 ∧ x.2 = C.2 ∧
          maybeMergeWithPreviousEntry (l1.take j ++ C :: S) j =
            l1.take (j - 1) ++ ((x.1.1, C.1.2), x.2) :: S)
        ∨ (¬ (x.1.2 + 1 = C.1.1 ∧ x.2 = C.2) ∧
          maybeMergeWithPreviousEntry (l1.take j ++ C :: S) j = l1.take j ++ C :: S))) := by
  have hlenj : (l1.take j).length = j := by rw [List.length_take]; omega
  by_cases hj0 : j = 0
  · subst hj0
    exact Or.inl ⟨rfl, mmwpe_zero⟩
  · right
    refine ⟨by omega, ?_⟩
    obtain ⟨x, hx⟩ : ∃ x, l1[j - 1]? = some x :=
      ⟨l1[j - 1], List.getElem?_eq_getElem (by omega)⟩
    have hcur : (l1.take j ++ C :: S)[j]? = some C := getElem?_seam hlenj
    have hprev : (l1.take j ++ C :: S)[j - 1]? = some x := by
      rw [List.getElem?_append, if_pos (by omega), List.getElem?_take, if_pos (by omega)]
      exact hx
    refine ⟨x, hx, ?_⟩
    by_cases hm : x.1.2 + 1 = C.1.1 ∧ x.2 = C.2
    · left
      refine ⟨hm.1, hm.2, ?_⟩
      rw [mmwpe_merge hj0 hcur hprev hm, take_append_of_take (by omega) (by omega)]
      congr 1
      have hd : (l1.take j ++ C :: S).drop (j + 1) = (C :: S).drop 1 :=
        drop_append_at2 hlenj
      rw [hd, List.drop_one, List.tail_cons]
    · exact Or.inr ⟨hm, mmwpe_nomerge hj0 hcur hprev hm⟩

/-- Invariant and lookup properties of the inserted-and-merged shape: a
prefix of the cleared list, one entry spanning at least the set range with
the new value, and a suffix of the cleared list. -/
theorem set_form_props {l1 : List (REntry V)} (hI1 : Inv l1) {r : SRange}
    (hr : r.1 ≤ r.2) {j p q : Nat} {ns ne : Int} {v : V}
    (hjlen : j ≤ l1.length)
    (hbefore : ∀ i : Nat, ∀ en : REntry V, l1[i]? = some en → i < j → en.1.2 < r.1)
    (hafter : ∀ i : Nat, ∀ en : REntry V, l1[i]? = some en → j ≤ i → r.2 < en.1.1)
    (hcp : (p = j ∧ ns = r.1 ∧
        ∀ x : REntry V, l1[j - 1]? = some x → 1 ≤ j → ¬ (x.1.2 + 1 = r.1 ∧ x.2 = v))
      ∨ (1 ≤ j ∧ p = j - 1 ∧
        ∃ x : REntry V, l1[j - 1]? = some x ∧ ns = x.1.1 ∧ x.1.2 + 1 = r.1 ∧ x.2 = v))
    (hcq : (q = j ∧ ne = r.2 ∧
        ∀ y : REntry V, l1[j]? = some y → ¬ (r.2 + 1 = y.1.1 ∧ y.2 = v))
      ∨ (q = j + 1 ∧
        ∃ y : REntry V, l1[j]? = some y ∧ ne = y.1.2 ∧ y.1.1 = r.2 + 1 ∧ y.2 = v)) :
    Inv (l1.take p ++ ((ns, ne), v) :: l1.drop q) ∧
    (ns ≤ r.1 ∧ r.2 ≤ ne) ∧
    (∀ k : Int, k < r.1 ∨ r.2 < k →
      lookup (l1.take p ++ ((ns, ne), v) :: l1.drop q) k = lookup l1 k) := by
  have hns : ns ≤ r.1 := by
    rcases hcp with ⟨_, rfl, _⟩ | ⟨h1, _, x, hx, rfl, hadj, _⟩
    · exact le_rfl
    · have hw := wf_get hI1 hx
      omega
  have hne : r.2 ≤ ne := by
    rcases hcq with ⟨_, rfl, _⟩ | ⟨_, y, hy, rfl, hys, _⟩
    · exact le_rfl
    · have hw := wf_get hI1 hy
      omega
  have hple : p ≤ j := by
    rcases hcp with ⟨rfl, _, _⟩ | ⟨_, rfl, _⟩ <;> omega
  have hqge : j ≤ q ∧ q ≤ l1.length := by
    rcases hcq with ⟨rfl, _, _⟩ | ⟨rfl, y, hy, _⟩
    · exact ⟨le_rfl, hjlen⟩
    · obtain ⟨hh, _⟩ := List.getElem?_eq_some.mp hy
      omega
  have hdrop_none : ∀ m : Nat, j ≤ m → ∀ k2 : Int, k2 ≤ r.2 →
      lookup (l1.drop m) k2 = none := by
    intro m hm k2 hk2
    refine lookup_eq_none_of fun en hen hc => ?_
    obtain ⟨i, hi⟩ := List.mem_iff_getElem?.mp hen
    rw [List.getElem?_drop] at hi
    have := hafter (m + i) en hi (by omega)
    unfold covers at hc
    omega
  have htake_none : ∀ m : Nat, m ≤ j → ∀ k2 : Int, r.1 ≤ k2 →
      lookup (l1.take m) k2 = none := by
    intro m hm k2 hk2
    refine lookup_eq_none_of fun en hen hc => ?_
    obtain ⟨i, hi⟩ := List.mem_iff_getElem?.mp hen
    rw [List.getElem?_take] at hi
    by_cases hip : i < m
    · rw [if_pos hip] at hi
      have := hbefore i en hi (by omega)
      unfold covers at hc
      omega
    · rw [if_neg hip] at hi
      cases hi
  refine ⟨?_, ⟨hns, hne⟩, ?_⟩
  · refine Inv_append (hI1.take p) ?_ ?_
    · constructor
      · intro en hen
        rcases List.mem_cons.mp hen with rfl | h
        · show ns ≤ ne
          omega
        · exact hI1.wf en (List.drop_subset _ _ h)
      · rw [List.chain'_cons']
        refine ⟨?_, (hI1.drop q).chain⟩
        intro y hy
        rw [List.head?_drop] at hy
        rcases hcq with ⟨rfl, rfl, hnomerge⟩ | ⟨rfl, y2, hy2, rfl, hy2s, hy2v⟩
        · have hst := hafter q y hy le_rfl
          exact ⟨hst, fun hadj hveq => hnomerge y hy ⟨hadj, hveq.symm⟩⟩
        · have hrel := chain_get hI1 hy2 hy
          unfold EntryRel at hrel
          exact ⟨hrel.1, fun hadj hveq => hrel.2 hadj (hy2v.trans hveq)⟩
    · intro x hx y hy
      rw [List.head?_cons] at hy
      obtain rfl := Option.some.inj hy
      obtain ⟨hp1, hx2⟩ := getLast?_take_eq (by omega) hx
      rcases hcp with ⟨rfl, rfl, hnomerge⟩ | ⟨hj1, rfl, x2, hx2b, rfl, hadj2, hx2v⟩
      · have hend := hbefore (p - 1) x hx2 (by omega)
        exact ⟨hend, fun hadj hveq => hnomerge x hx2 (by omega) ⟨hadj, hveq⟩⟩
      · have hx2c : l1[(j - 1 - 1) + 1]? = some x2 := by
          rw [show j - 1 - 1 + 1 = j - 1 by omega]
          exact hx2b
        have hrel := chain_get hI1 hx2 hx2c
        unfold EntryRel at hrel
        exact ⟨hrel.1, fun hadj hveq => hrel.2 hadj (hveq.trans hx2v.symm)⟩
  · intro k hk
    rw [lookup_append, lookup_cons]
    rcases hk with hkl | hkr
    · rw [hdrop_none q hqge.1 k (by omega)]
      rcases hcp with ⟨rfl, rfl, _⟩ | ⟨hj1, rfl, x, hx, rfl, hadj2, hxv⟩
      · rw [if_neg (show ¬ covers ((r.1, ne) : SRange) k from fun hc => by
          unfold covers at hc
          omega), Option.or_none]
        conv_rhs => rw [← List.take_append_drop p l1]
        rw [lookup_append, hdrop_none p le_rfl k (by omega), Option.or_none]
      · conv_rhs => rw [← List.take_append_drop (j - 1) l1]
        rw [lookup_append]
        have hdropj1 : l1.drop (j - 1) = x :: l1.drop j := by
          rw [List.drop_eq_getElem_cons (show j - 1 < l1.length by
            obtain ⟨hh, _⟩ := List.getElem?_eq_some.mp hx
            omega)]
          congr 1
          · obtain ⟨hh, heq⟩ := List.getElem?_eq_some.mp hx
            exact heq
          · congr 1
            omega
        rw [hdropj1, lookup_cons, hdrop_none j le_rfl k (by omega)]
        congr 1
        have hiff : covers ((x.1.1, ne) : SRange) k ↔ covers x.1 k := by
          unfold covers
          constructor <;> intro h <;> constructor <;> omega
        rw [if_congr hiff (show some v = some x.2 by rw [hxv]) rfl]
    · rw [htake_none p hple k (by omega), Option.none_or]
      rcases hcq with ⟨rfl, rfl, _⟩ | ⟨rfl, y, hy, rfl, hys, hyv⟩
      · rw [if_neg (show ¬ covers ((ns, r.2) : SRange) k from fun hc => by
          unfold covers at hc
          omega)]
        conv_rhs => rw [← List.take_append_drop q l1]
        rw [lookup_append, htake_none q le_rfl k (by omega), Option.none_or]
      · conv_rhs => rw [← List.take_append_drop j l1]
        rw [lookup_append, htake_none j le_rfl k (by omega), Option.none_or]
        have hdropj : l1.drop j = y :: l1.drop (j + 1) := by
          rw [List.drop_eq_getElem_cons (show j < l1.length by
            obtain ⟨hh, _⟩ := List.getElem?_eq_some.mp hy
            omega)]
          congr 1
          obtain ⟨hh, heq⟩ := List.getElem?_eq_some.mp hy
          exact heq
        rw [hdropj, lookup_cons]
        have hiff : covers ((ns, y.1.2) : SRange) k ↔ covers y.1 k := by
          unfold covers
          constructor <;> intro h <;> constructor <;> omega
        rw [if_congr hiff (show some v = some y.2 by rw [hyv]) rfl]

/-- Outcome of the previous-entry merge stage of set, for any outcome of
the next-entry merge stage. -/
theorem prev_stage_spec [DecidableEq V] {l1 : List (REntry V)} (hI1 : Inv l1)
    {r : SRange} (hr : r.1 ≤ r.2) {j q0 : Nat} {ne : Int} {v : V}
    (hjlen : j ≤ l1.length)
    (hbefore : ∀ i : Nat, ∀ en : REntry V, l1[i]? = some en → i < j → en.1.2 < r.1)
    (hafter : ∀ i : Nat, ∀ en : REntry V, l1[i]? = some en → j ≤ i → r.2 < en.1.1)
    (hcq : (q0 = j ∧ ne = r.2 ∧
        ∀ y : REntry V, l1[j]? = some y → ¬ (r.2 + 1 = y.1.1 ∧ y.2 = v))
      ∨ (q0 = j + 1 ∧
        ∃ y : REntry V, l1[j]? = some y ∧ ne = y.1.2 ∧ y.1.1 = r.2 + 1 ∧ y.2 = v)) :
    Inv (maybeMergeWithPreviousEntry (l1.take j ++ ((r.1, ne), v) :: l1.drop q0) j) ∧
    (∃ en ∈ maybeMergeWithPreviousEntry (l1.take j ++ ((r.1, ne), v) :: l1.drop q0) j,
      en.1.1 ≤ r.1 ∧ r.2 ≤ en.1.2 ∧ en.2 = v) ∧
    (∀ k : Int, k < r.1 ∨ r.2 < k →
      lookup (maybeMergeWithPreviousEntry (l1.take j ++ ((r.1, ne), v) :: l1.drop q0) j)
        k = lookup l1 k) := by
  rcases mmwpe_at_seam hjlen ((r.1, ne), v) (l1.drop q0) with ⟨hj0, hres⟩ |
    ⟨hj1, x, hx, ⟨hadj, hveq, hres⟩ | ⟨hnm, hres⟩⟩
  · rw [hres]
    obtain ⟨hInv, ⟨hns, hne2⟩, hlook⟩ := set_form_props hI1 hr hjlen hbefore hafter
      (Or.inl ⟨rfl, rfl, fun x2 hx2 h1 => absurd h1 (by omega)⟩) hcq
    exact ⟨hInv, ⟨((r.1, ne), v),
      List.mem_append_right _ (List.mem_cons_self _ _), le_rfl, hne2, rfl⟩, hlook⟩
  · have hveq2 : x.2 = v := hveq
    have hadj2 : x.1.2 + 1 = r.1 := hadj
    rw [hres, hveq2]
    obtain ⟨hInv, ⟨hns, hne2⟩, hlook⟩ := set_form_props hI1 hr hjlen hbefore hafter
      (Or.inr ⟨hj1, rfl, x, hx, rfl, hadj2, hveq2⟩) hcq
    exact ⟨hInv, ⟨((x.1.1, ne), v),
      List.mem_append_right _ (List.mem_cons_self _ _), hns, hne2, rfl⟩, hlook⟩
  · rw [hres]
    have hnm2 : ∀ x2 : REntry V, l1[j - 1]? = some x2 → 1 ≤ j →
        ¬ (x2.1.2 + 1 = r.1 ∧ x2.2 = v) := by
      intro x2 hx2 h1 hcontra
      rw [hx] at hx2
      obtain rfl := Option.some.inj hx2
      exact hnm ⟨hcontra.1, hcontra.2⟩
    obtain ⟨hInv, ⟨hns, hne2⟩, hlook⟩ := set_form_props hI1 hr hjlen hbefore hafter
      (Or.inl ⟨rfl, rfl, hnm2⟩) hcq
    exact ⟨hInv, ⟨((r.1, ne), v),
      List.mem_append_right _ (List.mem_cons_self _ _), le_rfl, hne2, rfl⟩, hlook⟩

/-- Semantic specification of the insertion phase over a list whose keys in
the set range have been cleared: the result satisfies the invariant, has a
single entry spanning the range with the new value, and preserves every key
outside the range. -/
theorem insertAndMerge_spec [DecidableEq V] {l1 : List (REntry V)} (hI1 : Inv l1)
    {r : SRange} (hr : r.1 ≤ r.2)
    (hclear : ∀ k : Int, r.1 ≤ k → k ≤ r.2 → ¬ memK l1 k) (v : V) :
    Inv (insertAndMerge l1 r v) ∧
    (∃ en ∈ insertAndMerge l1 r v, en.1.1 ≤ r.1 ∧ r.2 ≤ en.1.2 ∧ en.2 = v) ∧
    (∀ k : Int, k < r.1 ∨ r.2 < k →
      lookup (insertAndMerge l1 r v) k = lookup l1 k) := by
  have hnm : ¬ memK l1 r.1 := fun h => hclear r.1 le_rfl hr h
  have hneg : indexOf l1 r.1 < 0 := by
    by_contra hcon
    exact hnm ((indexOf_nonneg_iff hI1 r.1).mp (by omega))
  obtain ⟨hIdx, hnc⟩ := indexOf_neg hI1 hneg
  obtain ⟨j, hj⟩ : ∃ j : Nat, insPos l1 r.1 = j := ⟨_, rfl⟩
  have hins : (jsNot (indexOf l1 r.1)).toNat = j := by
    rw [hIdx, jsNot_jsNot]
    omega
  have hsplit := insPos_split hI1 r.1
  have hbefore : ∀ i : Nat, ∀ en : REntry V, l1[i]? = some en → i < j →
      en.1.2 < r.1 := fun i en hen hi => hsplit.1 i (by omega) en hen
  have hafter : ∀ i : Nat, ∀ en : REntry V, l1[i]? = some en → j ≤ i →
      r.2 < en.1.1 := by
    intro i en hen hij
    have h2 := hsplit.2 i (by omega) en hen
    by_contra hcon
    push_neg at hcon
    have hw := wf_get hI1 hen
    refine hclear (max r.1 en.1.1) (le_max_left _ _) (by omega)
      ⟨en, List.getElem?_mem hen, ?_⟩
    unfold covers
    exact ⟨le_max_right _ _, by omega⟩
  have hjlen : j ≤ l1.length := by
    have := l1.countP_le_length fun en => decide (en.1.2 < r.1)
    unfold insPos at hj
    omega
  simp only [insertAndMerge]
  rw [hins]
  have hl2len : (l1.take j ++ (r, v) :: l1.drop j).length = l1.length + 1 := by
    rw [List.length_append, List.length_take, List.length_cons, List.length_drop]
    omega
  have hlenj : (l1.take j).length = j := by
    rw [List.length_take]
    omega
  have hl2j : (l1.take j ++ (r, v) :: l1.drop j)[j]? = some (r, v) := getElem?_seam hlenj
  by_cases hjlt : j < l1.length
  · obtain ⟨y, hy⟩ : ∃ Y, l1[j]? = some Y := ⟨l1[j], List.getElem?_eq_getElem hjlt⟩
    rw [if_pos (by rw [hl2len]; omega)]
    have hl2j1 : (l1.take j ++ (r, v) :: l1.drop j)[j + 1]? = some y := by
      rw [List.getElem?_append, if_neg (by omega)]
      have h1 : j + 1 - (l1.take j).length = 1 := by
        rw [hlenj]
        omega
      rw [h1]
      rw [show ((1 : Nat)) = 0 + 1 from rfl, List.getElem?_cons_succ, List.getElem?_drop,
        Nat.add_zero, hy]
    by_cases hm1 : r.2 + 1 = y.1.1 ∧ v = y.2
    · rw [mmwpe_merge (show j + 1 ≠ 0 by omega) hl2j1
        (show (l1.take j ++ (r, v) :: l1.drop j)[j + 1 - 1]? = some (r, v) from hl2j)
        hm1]
      have ht : (l1.take j ++ (r, v) :: l1.drop j).take (j + 1 - 1) = l1.take j := by
        rw [show j + 1 - 1 = j from rfl]
        exact take_append_of_take le_rfl hjlen
      have hd : (l1.take j ++ (r, v) :: l1.drop j).drop (j + 1 + 1) = l1.drop (j + 1) := by
        rw [show j + 1 + 1 = j + 2 from rfl, drop_append_at2 hlenj,
          show ((2 : Nat)) = 1 + 1 from rfl, List.drop_succ_cons, List.drop_drop]
      rw [ht, hd]
      exact prev_stage_spec hI1 hr hjlen hbefore hafter
        (Or.inr ⟨rfl, y, hy, rfl, hm1.1.symm, hm1.2.symm⟩)
    · rw [mmwpe_nomerge (show j + 1 ≠ 0 by omega) hl2j1
        (show (l1.take j ++ (r, v) :: l1.drop j)[j + 1 - 1]? = some (r, v) from hl2j)
        hm1]
      refine prev_stage_spec hI1 hr hjlen hbefore hafter (Or.inl ⟨rfl, rfl, ?_⟩)
      intro y2 hy2 hcontra
      rw [hy] at hy2
      obtain rfl := Option.some.inj hy2
      exact hm1 ⟨hcontra.1, hcontra.2.symm⟩
  · rw [if_neg (by rw [hl2len]; omega)]
    refine prev_stage_spec hI1 hr hjlen hbefore hafter (Or.inl ⟨rfl, rfl, ?_⟩)
    intro y2 hy2 _hcontra
    rw [List.getElem?_eq_none_iff.mpr (by omega)] at hy2
    cases hy2

/-- Semantic specification of setEntries: the result satisfies the
invariant, a single entry spans the whole range carrying the new value, and
keys outside the range keep their previous association. -/
theorem setEntries_spec [DecidableEq V] {l : List (REntry V)} (hI : Inv l)
    {r : SRange} (hr : r.1 ≤ r.2) (v : V) :
    Inv (setEntries l r v) ∧
    (∃ en ∈ setEntries l r v, en.1.1 ≤ r.1 ∧ r.2 ≤ en.1.2 ∧ en.2 = v) ∧
    (∀ k : Int, k < r.1 ∨ r.2 < k → lookup (setEntries l r v) k = lookup l k) := by
  obtain ⟨hI1, hclear, hpres, _⟩ := delEntries_spec hI hr
  have hcore := insertAndMerge_spec hI1 hr (fun k h1 h2 => hclear k h1 h2) v
  simp only [setEntries]
  exact ⟨hcore.1, hcore.2.1, fun k hk => (hcore.2.2 k hk).trans (hpres k hk)⟩

theorem clampFirst_nil {r : SRange} : clampFirst r ([] : List (REntry V)) = [] := rfl

theorem clampFirst_cons {r : SRange} {x : REntry V} {t : List (REntry V)} :
    clampFirst r (x :: t) = ((max r.1 x.1.1, x.1.2), x.2) :: t := by
  simp [clampFirst]

theorem clampLast_single {r : SRange} {x : REntry V} :
    clampLast r [x] = [((x.1.1, min r.2 x.1.2), x.2)] := by
  simp [clampLast]

/-- Clamping the last entry of a list that ends in a known entry. -/
theorem clampLast_append_single {r : SRange} {X : List (REntry V)} {x : REntry V} :
    clampLast r (X ++ [x]) = X ++ [((x.1.1, min r.2 x.1.2), x.2)] := by
  have hlen : (X ++ [x]).length - 1 = X.length := by simp
  have hget : (X ++ [x])[(X ++ [x]).length - 1]? = some x := by
    rw [hlen]; exact getElem?_seam rfl
  simp only [clampLast, hget]
  rw [hlen]
  exact set_middle_at rfl

/-- A one-entry window copied out of the list. -/
theorem copy_decomp_one {l : List (REntry V)} {a : Nat} {ea : REntry V}
    (hea : l[a]? = some ea) : (l.drop a).take 1 = [ea] := by
  obtain ⟨ha, rfl⟩ := List.getElem?_eq_some.mp hea
  rw [List.drop_eq_getElem_cons ha]
  rfl

/-- A window of at least two entries copied out of the list: the first
entry, the middle block, and the last entry. -/
theorem copy_decomp {l : List (REntry V)} {a b : Nat} (hab : a < b)
    {ea eb : REntry V} (hea : l[a]? = some ea) (heb : l[b]? = some eb) :
    (l.drop a).take (b - a + 1) =
      ea :: ((l.drop (a + 1)).take (b - a - 1) ++ [eb]) := by
  obtain ⟨ha, rfl⟩ := List.getElem?_eq_some.mp hea
  rw [List.drop_eq_getElem_cons ha, List.take_cons_succ]
  congr 1
  have h1 : b - a = (b - a - 1) + 1 := by omega
  rw [h1, List.take_succ]
  have h2 : (l.drop (a + 1))[b - a - 1]? = some eb := by
    rw [List.getElem?_drop]
    rw [show a + 1 + (b - a - 1) = b from by omega]
    exact heb
  rw [h2]
  rfl

/-- The shape of slice when the intersecting window is a single entry:
both endpoints of the copy get clamped. -/
theorem sliceEntries_form_eq {l : List (REntry V)} {r : SRange} {a : Nat}
    (hA : indicesOf l r = some ((a : Int), (a : Int)))
    {ea : REntry V} (hea : l[a]? = some ea) :
    sliceEntries l r = [((max r.1 ea.1.1, min r.2 ea.1.2), ea.2)] := by
  simp only [sliceEntries, hA]
  have h1 : ((a : Int)).toNat = a := by omega
  rw [h1, show a - a + 1 = 1 from by omega, copy_decomp_one hea, clampFirst_cons]
  exact clampLast_single

/-- The shape of slice when the intersecting window has at least two
entries: the first copy start-clamped, the middle untouched, the last copy
end-clamped. -/
theorem sliceEntries_form_lt {l : List (REntry V)} {r : SRange} {a b : Nat}
    (hab : a < b) (hAB : indicesOf l r = some ((a : Int), (b : Int)))
    {ea eb : REntry V} (hea : l[a]? = some ea) (heb : l[b]? = some eb) :
    sliceEntries l r =
      ((max r.1 ea.1.1, ea.1.2), ea.2) ::
        ((l.drop (a + 1)).take (b - a - 1) ++ [((eb.1.1, min r.2 eb.1.2), eb.2)]) := by
  simp only [sliceEntries, hAB]
  have h1 : ((a : Int)).toNat = a := by omega
  have h2 : ((b : Int)).toNat = b := by omega
  rw [h1, h2, copy_decomp hab hea heb, clampFirst_cons,
    show ((max r.1 ea.1.1, ea.1.2), ea.2) :: ((l.drop (a + 1)).take (b - a - 1) ++ [eb])
      = (((max r.1 ea.1.1, ea.1.2), ea.2) :: (l.drop (a + 1)).take (b - a - 1)) ++ [eb]
      from (List.cons_append ..).symm,
    clampLast_append_single, List.cons_append]

/-- Semantic specification of sliceEntries: the result satisfies the
invariant, looks up exactly like the original inside the range and covers
nothing outside it, is empty exactly when the range intersects nothing, and
every result entry is an in-range portion of an intersecting original
entry with its value preserved. -/
theorem sliceEntries_spec {l : List (REntry V)} (hI : Inv l) {r : SRange}
    (hr : r.1 ≤ r.2) :
    Inv (sliceEntries l r) ∧
    (∀ k : Int, lookup (sliceEntries l r) k =
      if r.1 ≤ k ∧ k ≤ r.2 then lookup l k else none) ∧
    (sliceEntries l r = [] ↔ ∀ en ∈ l, ¬ intersects en.1 r) ∧
    (∀ en ∈ sliceEntries l r, r.1 ≤ en.1.1 ∧ en.1.2 ≤ r.2 ∧
      ∃ en0 ∈ l, intersects en0.1 r ∧ en.2 = en0.2 ∧
        en0.1.1 ≤ en.1.1 ∧ en.1.2 ≤ en0.1.2) := by
  rcases indicesOf_spec hI hr with ⟨hnone, hnint⟩ | ⟨a, b, hAB, hab, hblen, hwin⟩
  · have hres : sliceEntries l r = [] := by simp only [sliceEntries, hnone]
    rw [hres]
    refine ⟨Inv_nil, ?_, iff_of_true rfl hnint, by simp⟩
    intro k
    by_cases hk : r.1 ≤ k ∧ k ≤ r.2
    · rw [if_pos hk, lookup_nil]
      symm
      refine lookup_eq_none_of ?_
      intro en hen hc
      have hc2 : en.1.1 ≤ k ∧ k ≤ en.1.2 := hc
      exact hnint en hen ⟨by omega, by omega⟩
    · rw [if_neg hk, lookup_nil]
  · obtain ⟨ea, hea⟩ : ∃ ea, l[a]? = some ea :=
      ⟨l[a], List.getElem?_eq_getElem (by omega)⟩
    obtain ⟨eb, heb⟩ : ∃ eb, l[b]? = some eb :=
      ⟨l[b], List.getElem?_eq_getElem hblen⟩
    have hIa : intersects ea.1 r := (hwin a ea hea).mpr ⟨le_rfl, hab⟩
    have hIb : intersects eb.1 r := (hwin b eb heb).mpr ⟨hab, le_rfl⟩
    have hIa2 : ea.1.1 ≤ r.2 ∧ r.1 ≤ ea.1.2 := hIa
    have hIb2 : eb.1.1 ≤ r.2 ∧ r.1 ≤ eb.1.2 := hIb
    have hwfa := wf_get hI hea
    have hwfb := wf_get hI heb
    have hlow : ∀ i : Nat, ∀ en : REntry V, i < a → l[i]? = some en →
        en.1.2 < r.1 := by
      intro i en hi hen
      have hni : ¬ intersects en.1 r := fun hc => by
        have := (hwin i en hen).mp hc
        omega
      have hni2 : ¬ (en.1.1 ≤ r.2 ∧ r.1 ≤ en.1.2) := hni
      have hs := sorted_get_lt hI (show i < b from by omega) hen heb
      have hwfe := wf_get hI hen
      omega
    have hhigh : ∀ i : Nat, ∀ en : REntry V, b < i → l[i]? = some en →
        r.2 < en.1.1 := by
      intro i en hi hen
      have hni : ¬ intersects en.1 r := fun hc => by
        have := (hwin i en hen).mp hc
        omega
      have hni2 : ¬ (en.1.1 ≤ r.2 ∧ r.1 ≤ en.1.2) := hni
      have hs := sorted_get_lt hI (show b < i from by omega) heb hen
      have hwfe := wf_get hI hen
      omega
    rcases Nat.eq_or_lt_of_le hab with heqab | hltab
    · subst heqab
      rw [hea] at heb
      obtain rfl := Option.some.inj heb
      have hres := sliceEntries_form_eq hAB hea
      rw [hres]
      refine ⟨Inv_single (show max r.1 ea.1.1 ≤ min r.2 ea.1.2 from by omega),
        ?_, iff_of_false (by simp) (fun h => h ea (List.getElem?_mem hea) hIa), ?_⟩
      · intro k
        rw [lookup_single]
        by_cases hk : r.1 ≤ k ∧ k ≤ r.2
        · rw [if_pos hk]
          by_cases hca : covers ea.1 k
          · have hca2 : ea.1.1 ≤ k ∧ k ≤ ea.1.2 := hca
            rw [if_pos (show covers (max r.1 ea.1.1, min r.2 ea.1.2) k from
              ⟨by omega, by omega⟩)]
            symm
            exact (lookup_eq_some_iff hI).mpr ⟨ea, List.getElem?_mem hea, hca, rfl⟩
          · rw [if_neg (show ¬ covers (max r.1 ea.1.1, min r.2 ea.1.2) k from
              fun hc => hca ⟨by have := hc.1; omega, by have := hc.2; omega⟩)]
            symm
            refine lookup_eq_none_of ?_
            intro en hen hcen
            obtain ⟨i, hi⟩ := List.mem_iff_getElem?.mp hen
            rcases Nat.lt_trichotomy i a with h | h | h
            · have := hlow i en h hi
              have hcen2 : en.1.1 ≤ k ∧ k ≤ en.1.2 := hcen
              omega
            · subst h
              rw [hi] at hea
              obtain rfl := Option.some.inj hea
              exact hca hcen
            · have := hhigh i en h hi
              have hcen2 : en.1.1 ≤ k ∧ k ≤ en.1.2 := hcen
              omega
        · rw [if_neg hk, if_neg (show ¬ covers (max r.1 ea.1.1, min r.2 ea.1.2) k from
            fun hc => hk ⟨by have := hc.1; omega, by have := hc.2; omega⟩)]
      · intro en hen
        obtain rfl := List.mem_singleton.mp hen
        exact ⟨show r.1 ≤ max r.1 ea.1.1 from by omega,
          show min r.2 ea.1.2 ≤ r.2 from by omega,
          ea, List.getElem?_mem hea, hIa, rfl,
          show ea.1.1 ≤ max r.1 ea.1.1 from by omega,
          show min r.2 ea.1.2 ≤ ea.1.2 from by omega⟩
    · obtain ⟨ep, hep⟩ : ∃ ep, l[a + 1]? = some ep :=
        ⟨l[a + 1], List.getElem?_eq_getElem (by omega)⟩
      have hIp : ep.1.1 ≤ r.2 ∧ r.1 ≤ ep.1.2 :=
        (hwin (a + 1) ep hep).mpr ⟨by omega, by omega⟩
      have hsap := sorted_get_lt hI (show a < a + 1 from by omega) hea hep
      have hae2 : ea.1.2 < r.2 := by omega
      obtain ⟨em, hem⟩ : ∃ em, l[b - 1]? = some em :=
        ⟨l[b - 1], List.getElem?_eq_getElem (by omega)⟩
      have hIm : em.1.1 ≤ r.2 ∧ r.1 ≤ em.1.2 :=
        (hwin (b - 1) em hem).mpr ⟨by omega, by omega⟩
      have hsmb := sorted_get_lt hI (show b - 1 < b from by omega) hem heb
      have hbs : r.1 < eb.1.1 := by omega
      have hmid : ∀ j : Nat, ∀ en : REntry V,
          ((l.drop (a + 1)).take (b - a - 1))[j]? = some en →
          l[a + 1 + j]? = some en ∧ j < b - a - 1 := by
        intro j en hj
        rw [List.getElem?_take] at hj
        by_cases hjlt : j < b - a - 1
        · rw [if_pos hjlt, List.getElem?_drop] at hj
          exact ⟨hj, hjlt⟩
        · rw [if_neg hjlt] at hj
          cases hj
      have hmidb : ∀ en ∈ (l.drop (a + 1)).take (b - a - 1),
          r.1 ≤ en.1.1 ∧ en.1.2 ≤ r.2 ∧ en ∈ l ∧ intersects en.1 r := by
        intro en hen
        obtain ⟨j, hj⟩ := List.mem_iff_getElem?.mp hen
        obtain ⟨hj2, hjlt⟩ := hmid j en hj
        have h1 := sorted_get_lt hI (show a < a + 1 + j from by omega) hea hj2
        have h2 := sorted_get_lt hI (show a + 1 + j < b from by omega) hj2 heb
        have hint : intersects en.1 r :=
          (hwin (a + 1 + j) en hj2).mpr ⟨by omega, by omega⟩
        exact ⟨by omega, by omega, List.getElem?_mem hj2, hint⟩
      have hldec : l = l.take a ++
          (ea :: ((l.drop (a + 1)).take (b - a - 1) ++ (eb :: l.drop (b + 1)))) := by
        conv_lhs => rw [← List.take_append_drop a l]
        congr 1
        obtain ⟨ha2, hea2⟩ := List.getElem?_eq_some.mp hea
        rw [List.drop_eq_getElem_cons ha2, hea2]
        congr 1
        conv_lhs => rw [← List.take_append_drop (b - a - 1) (l.drop (a + 1))]
        congr 1
        rw [List.drop_drop]
        obtain ⟨hb2, heb2⟩ := List.getElem?_eq_some.mp heb
        rw [show a + 1 + (b - a - 1) = b from by omega,
          List.drop_eq_getElem_cons hb2, heb2]
      have hlktake : ∀ k : Int, r.1 ≤ k → lookup (l.take a) k = none := by
        intro k hk
        refine lookup_eq_none_of ?_
        intro en hen hc
        obtain ⟨i, hi⟩ := List.mem_iff_getElem?.mp hen
        rw [List.getElem?_take] at hi
        by_cases hia : i < a
        · rw [if_pos hia] at hi
          have := hlow i en hia hi
          have hc2 : en.1.1 ≤ k ∧ k ≤ en.1.2 := hc
          omega
        · rw [if_neg hia] at hi
          cases hi
      have hlkdrop : ∀ k : Int, k ≤ r.2 → lookup (l.drop (b + 1)) k = none := by
        intro k hk
        refine lookup_eq_none_of ?_
        intro en hen hc
        obtain ⟨j, hj⟩ := List.mem_iff_getElem?.mp hen
        rw [List.getElem?_drop] at hj
        have := hhigh (b + 1 + j) en (by omega) hj
        have hc2 : en.1.1 ≤ k ∧ k ≤ en.1.2 := hc
        omega
      have hIcopy : Inv ((l.drop a).take (b - a + 1)) := (hI.drop a).take _
      rw [copy_decomp hltab hea heb] at hIcopy
      have hchain := hIcopy.chain
      rw [List.chain'_cons'] at hchain
      obtain ⟨hhead, htail⟩ := hchain
      rw [List.chain'_append] at htail
      obtain ⟨hcmid, _, hseam⟩ := htail
      have hres := sliceEntries_form_lt hltab hAB hea heb
      rw [hres]
      refine ⟨⟨?_, ?_⟩, ?_, iff_of_false (by simp)
        (fun h => h ea (List.getElem?_mem hea) hIa), ?_⟩
      · intro en hen
        rcases List.mem_cons.mp hen with rfl | hen2
        · show max r.1 ea.1.1 ≤ ea.1.2
          omega
        · rcases List.mem_append.mp hen2 with hm | hz
          · exact hI.wf en (hmidb en hm).2.2.1
          · obtain rfl := List.mem_singleton.mp hz
            show eb.1.1 ≤ min r.2 eb.1.2
            omega
      · rcases hmc : (l.drop (a + 1)).take (b - a - 1) with _ | ⟨m0, mt⟩
        · rw [hmc] at hhead
          simp only [List.nil_append]
          exact List.chain'_pair.mpr (hhead eb (by simp))
        · rw [hmc] at hhead hcmid hseam
          rw [List.cons_append, List.chain'_cons]
          refine ⟨hhead m0 (by simp), ?_⟩
          rw [← List.cons_append]
          refine List.chain'_append.mpr ⟨hcmid, List.chain'_singleton _, ?_⟩
          intro x hx w hw
          obtain rfl : ((eb.1.1, min r.2 eb.1.2), eb.2) = w := by simpa using hw
          exact hseam x hx eb (by simp)
      · intro k
        by_cases hk : r.1 ≤ k ∧ k ≤ r.2
        · rw [if_pos hk]
          conv_rhs => rw [hldec]
          rw [lookup_append, hlktake k hk.1, Option.none_or, lookup_cons, lookup_cons]
          by_cases hca : covers ea.1 k
          · have hca2 : ea.1.1 ≤ k ∧ k ≤ ea.1.2 := hca
            rw [if_pos hca, if_pos (show covers (max r.1 ea.1.1, ea.1.2) k from
              ⟨by omega, by omega⟩)]
          · rw [if_neg hca, if_neg (show ¬ covers (max r.1 ea.1.1, ea.1.2) k from
              fun hc => hca ⟨by have := hc.1; omega, hc.2⟩)]
            rw [lookup_append, lookup_append]
            cases hlm : lookup ((l.drop (a + 1)).take (b - a - 1)) k with
            | some v => rfl
            | none =>
              rw [Option.none_or, Option.none_or, lookup_single, lookup_cons]
              by_cases hcb : covers eb.1 k
              · have hcb2 : eb.1.1 ≤ k ∧ k ≤ eb.1.2 := hcb
                rw [if_pos hcb, if_pos (show covers (eb.1.1, min r.2 eb.1.2) k from
                  ⟨by omega, by omega⟩)]
              · rw [if_neg hcb, if_neg (show ¬ covers (eb.1.1, min r.2 eb.1.2) k from
                  fun hc => hcb ⟨hc.1, by have := hc.2; omega⟩)]
                exact (hlkdrop k hk.2).symm
        · rw [if_neg hk]
          refine lookup_eq_none_of ?_
          intro en hen hc
          rcases List.mem_cons.mp hen with rfl | hen2
          · have hc2 : max r.1 ea.1.1 ≤ k ∧ k ≤ ea.1.2 := hc
            omega
          · rcases List.mem_append.mp hen2 with hm | hz
            · have h := hmidb en hm
              have hc2 : en.1.1 ≤ k ∧ k ≤ en.1.2 := hc
              omega
            · obtain rfl := List.mem_singleton.mp hz
              have hc2 : eb.1.1 ≤ k ∧ k ≤ min r.2 eb.1.2 := hc
              omega
      · intro en hen
        rcases List.mem_cons.mp hen with rfl | hen2
        · exact ⟨show r.1 ≤ max r.1 ea.1.1 from by omega,
            show ea.1.2 ≤ r.2 from by omega,
            ea, List.getElem?_mem hea, hIa, rfl,
            show ea.1.1 ≤ max r.1 ea.1.1 from by omega, le_rfl⟩
        · rcases List.mem_append.mp hen2 with hm | hz
          · obtain ⟨h1, h2, h3, h4⟩ := hmidb en hm
            exact ⟨h1, h2, en, h3, h4, rfl, le_rfl, le_rfl⟩
          · obtain rfl := List.mem_singleton.mp hz
            exact ⟨show r.1 ≤ eb.1.1 from by omega,
              show min r.2 eb.1.2 ≤ r.2 from by omega,
              eb, List.getElem?_mem heb, hIb, rfl, le_rfl,
              show min r.2 eb.1.2 ≤ eb.1.2 from by omega⟩

/-- Membership in a splice: the inserted element or an original one. -/
theorem splice_mem {l : List (REntry V)} {j : Nat} {x en : REntry V}
    (h : en ∈ l.take j ++ x :: l.drop j) : en = x ∨ en ∈ l := by
  rcases List.mem_append.mp h with h | h
  · exact Or.inr (List.mem_of_mem_take h)
  · rcases List.mem_cons.mp h with h | h
    · exact Or.inl h
    · exact Or.inr (List.mem_of_mem_drop h)

/-- Every value in the result of the merge helper already occurred. -/
theorem mmwpe_values [DecidableEq V] {l : List (REntry V)} {i : Nat} :
    ∀ en ∈ maybeMergeWithPreviousEntry l i, ∃ en0 ∈ l, en.2 = en0.2 := by
  intro en hen
  by_cases hi : i = 0
  · rw [hi, mmwpe_zero] at hen
    exact ⟨en, hen, rfl⟩
  · cases h0 : l[i]? with
    | none =>
      simp only [maybeMergeWithPreviousEntry, h0, if_neg hi] at hen
      exact ⟨en, hen, rfl⟩
    | some cur =>
      cases h1 : l[i - 1]? with
      | none =>
        simp only [maybeMergeWithPreviousEntry, h0, h1, if_neg hi] at hen
        exact ⟨en, hen, rfl⟩
      | some previous =>
        by_cases hc : previous.1.2 + 1 = cur.1.1 ∧ previous.2 = cur.2
        · rw [mmwpe_merge hi h0 h1 hc] at hen
          rcases List.mem_append.mp hen with h | h
          · exact ⟨en, List.mem_of_mem_take h, rfl⟩
          · rcases List.mem_cons.mp h with rfl | h
            · exact ⟨previous, List.getElem?_mem h1, rfl⟩
            · exact ⟨en, List.mem_of_mem_drop h, rfl⟩
        · rw [mmwpe_nomerge hi h0 h1 hc] at hen
          exact ⟨en, hen, rfl⟩

/-- Every value in the single-entry delete helper already occurred. -/
theorem dfsr_values {l : List (REntry V)} {t : Nat} {r : SRange} :
    ∀ en ∈ deleteFromSingleRange l t r, ∃ en0 ∈ l, en.2 = en0.2 := by
  intro en hen
  cases h0 : l[t]? with
  | none =>
    simp only [deleteFromSingleRange, h0] at hen
    exact ⟨en, hen, rfl⟩
  | some target =>
    have hmt : target ∈ l := List.getElem?_mem h0
    simp only [deleteFromSingleRange, h0] at hen
    split_ifs at hen
    · rcases List.mem_append.mp hen with h | h
      · exact ⟨en, List.mem_of_mem_take h, rfl⟩
      · exact ⟨en, List.mem_of_mem_drop h, rfl⟩
    · rcases List.mem_or_eq_of_mem_set hen with h | rfl
      · exact ⟨en, h, rfl⟩
      · exact ⟨target, hmt, rfl⟩
    · rcases List.mem_or_eq_of_mem_set hen with h | rfl
      · exact ⟨en, h, rfl⟩
      · exact ⟨target, hmt, rfl⟩
    · rcases List.mem_append.mp hen with h | h
      · exact ⟨en, List.mem_of_mem_take h, rfl⟩
      · rcases List.mem_cons.mp h with rfl | h
        · exact ⟨target, hmt, rfl⟩
        · rcases List.mem_cons.mp h with rfl | h
          · exact ⟨target, hmt, rfl⟩
          · exact ⟨en, List.mem_of_mem_drop h, rfl⟩

/-- Every value surviving the span delete already occurred. -/
theorem delEntries_values {l : List (REntry V)} {r : SRange} :
    ∀ en ∈ (delEntries l r).2, ∃ en0 ∈ l, en.2 = en0.2 := by
  intro en hen
  cases hio : indicesOf l r with
  | none =>
    simp only [delEntries, hio] at hen
    exact ⟨en, hen, rfl⟩
  | some p =>
    obtain ⟨f, lst⟩ := p
    simp only [delEntries, hio] at hen
    have step2 : ∀ x ∈ deleteFromSingleRange l lst.toNat r, ∃ en0 ∈ l, x.2 = en0.2 :=
      dfsr_values
    have step3 : ∀ x ∈
        ((deleteFromSingleRange l lst.toNat r).take (f + 1).toNat ++
          (deleteFromSingleRange l lst.toNat r).drop
            ((f + 1).toNat + (lst - (f + 1)).toNat)),
        ∃ en0 ∈ l, x.2 = en0.2 := by
      intro x hx
      rcases List.mem_append.mp hx with h | h
      · exact step2 x (List.mem_of_mem_take h)
      · exact step2 x (List.mem_of_mem_drop h)
    by_cases hfl : f ≠ lst
    · rw [if_pos hfl] at hen
      obtain ⟨x0, hx0, hval⟩ := dfsr_values en hen
      obtain ⟨en0, hen0, hval2⟩ := step3 x0 hx0
      exact ⟨en0, hen0, hval.trans hval2⟩
    · rw [if_neg hfl] at hen
      exact step3 en hen

/-- Every value after insertion and merging is the new value or one from
the pre-insertion list. -/
theorem insertAndMerge_values [DecidableEq V] {l1 : List (REntry V)} {r : SRange}
    {v : V} : ∀ en ∈ insertAndMerge l1 r v, en.2 = v ∨ ∃ en0 ∈ l1, en.2 = en0.2 := by
  intro en hen
  simp only [insertAndMerge] at hen
  obtain ⟨e1, he1, hv1⟩ := mmwpe_values en hen
  have hsplice : ∀ x ∈ l1.take (jsNot (indexOf l1 r.1)).toNat ++
      (r, v) :: l1.drop (jsNot (indexOf l1 r.1)).toNat,
      x.2 = v ∨ ∃ en0 ∈ l1, x.2 = en0.2 := by
    intro x hx
    rcases splice_mem hx with rfl | h
    · exact Or.inl rfl
    · exact Or.inr ⟨x, h, rfl⟩
  by_cases hc : (jsNot (indexOf l1 r.1)).toNat + 1 <
      (l1.take (jsNot (indexOf l1 r.1)).toNat ++
        (r, v) :: l1.drop (jsNot (indexOf l1 r.1)).toNat).length
  · rw [if_pos hc] at he1
    obtain ⟨e2, he2, hv2⟩ := mmwpe_values e1 he1
    rcases hsplice e2 he2 with h | ⟨en0, hen0, h⟩
    · exact Or.inl ((hv1.trans hv2).trans h)
    · exact Or.inr ⟨en0, hen0, (hv1.trans hv2).trans h⟩
  · rw [if_neg hc] at he1
    rcases hsplice e1 he1 with h | ⟨en0, hen0, h⟩
    · exact Or.inl (hv1.trans h)
    · exact Or.inr ⟨en0, hen0, hv1.trans h⟩

/-- Setting with a value already carried by every entry keeps all values
equal to it. -/
theorem setEntries_values_const [DecidableEq V] {l : List (REntry V)} {r : SRange}
    {c : V} (h : ∀ en ∈ l, en.2 = c) : ∀ en ∈ setEntries l r c, en.2 = c := by
  intro en hen
  rcases insertAndMerge_values en hen with hv | ⟨en0, hen0, hv⟩
  · exact hv
  · obtain ⟨en1, hen1, hv2⟩ := delEntries_values en0 hen0
    exact (hv.trans hv2).trans (h en1 hen1)

/-- Under the invariant, a list whose values all coincide has consecutive
ranges separated by a gap of at least one key. -/
theorem Inv_const_gap {c : V} : ∀ {l : List (REntry V)}, Inv l →
    (∀ en ∈ l, en.2 = c) → l.Chain' fun x y => x.1.2 + 1 < y.1.1 := by
  intro l
  induction l with
  | nil => exact fun _ _ => List.chain'_nil
  | cons x t ih =>
    intro hI hc
    cases t with
    | nil => exact List.chain'_singleton _
    | cons y t2 =>
      rw [List.chain'_cons]
      have hrel := (List.chain'_cons.mp hI.chain).1
      refine ⟨?_, ih hI.tail fun en hen => hc en (List.mem_cons_of_mem _ hen)⟩
      have hx := hc x (List.mem_cons_self _ _)
      have hy := hc y (List.mem_cons_of_mem _ (List.mem_cons_self _ _))
      by_cases hadj : x.1.2 + 1 = y.1.1
      · exact absurd (hx.trans hy.symm) (hrel.2 hadj)
      · have := hrel.1
        omega

/-- When delete reports nothing removed, the entries are untouched. -/
theorem delEntries_eq_of_false {l : List (REntry V)} {r : SRange}
    (h : (delEntries l r).1 = false) : (delEntries l r).2 = l := by
  cases hio : indicesOf l r with
  | none => simp only [delEntries, hio]
  | some p =>
    obtain ⟨f, lst⟩ := p
    simp only [delEntries, hio] at h
    cases h

/-- The public get returns the unique covering entry. -/
theorem get_of_covers {m : SortedRangeMap V} (hI : Inv m.entries) {k : Int}
    {en : REntry V} (hmem : en ∈ m.entries) (hc : covers en.1 k) :
    m.get k = some en := by
  obtain ⟨i, hi⟩ := List.mem_iff_getElem?.mp hmem
  have hidx : indexOf m.entries k = (i : Int) := indexOf_eq_of_covers hI hi hc
  simp only [SortedRangeMap.get, SortedRangeMap.indexOf]
  rw [hidx, if_pos (by positivity), show ((i : Int)).toNat = i from by omega]
  exact hi

/-- The public get misses exactly the uncovered keys. -/
theorem get_eq_none_iff {m : SortedRangeMap V} (hI : Inv m.entries) (k : Int) :
    m.get k = none ↔ ¬ memK m.entries k := by
  constructor
  · intro h ⟨en, hmem, hc⟩
    rw [get_of_covers hI hmem hc] at h
    cases h
  · intro h
    simp only [SortedRangeMap.get, SortedRangeMap.indexOf]
    rw [if_neg (fun hcon => h ((indexOf_nonneg_iff hI k).mp hcon))]

/-- The invariant survives the whole set-fold of the entries constructor. -/
theorem foldlM_set_inv [DecidableEq V] :
    ∀ (entries : List (REntry V)) (m0 m : SortedRangeMap V), Inv m0.entries →
      entries.foldlM (fun m en => m.set en.1 en.2) m0 = some m → Inv m.entries := by
  intro entries
  induction entries with
  | nil =>
    intro m0 m h0 hfold
    simp only [List.foldlM_nil] at hfold
    obtain rfl := Option.some.inj hfold
    exact h0
  | cons en t ih =>
    intro m0 m h0 hfold
    rw [List.foldlM_cons] at hfold
    cases hset : m0.set en.1 en.2 with
    | none =>
      rw [hset] at hfold
      cases hfold
    | some m1 =>
      rw [hset] at hfold
      simp only [Option.bind_eq_bind, Option.some_bind] at hfold
      have h1 : Inv m1.entries := by
        simp only [SortedRangeMap.set] at hset
        by_cases hv : assertRange en.1 = true
        · rw [if_pos hv] at hset
          obtain rfl := Option.some.inj hset
          have hvr : ValidRange en.1 := (assertRange_iff _).mp hv
          exact (setEntries_spec h0 hvr.2.2 en.2).1
        · rw [if_neg hv] at hset
          cases hset
      exact ih m1 m h1 hfold

/-- The set-fold of the entries constructor fails exactly when some entry
carries an invalid range. -/
theorem foldlM_set_none [DecidableEq V] :
    ∀ (entries : List (REntry V)) (m0 : SortedRangeMap V),
      entries.foldlM (fun m en => m.set en.1 en.2) m0 = none ↔
        ¬ ∀ en ∈ entries, ValidRange en.1 := by
  intro entries
  induction entries with
  | nil =>
    intro m0
    simp [List.foldlM_nil]
  | cons en t ih =>
    intro m0
    rw [List.foldlM_cons]
    by_cases hv : ValidRange en.1
    · have hset : m0.set en.1 en.2 = some ⟨setEntries m0.entries en.1 en.2⟩ := by
        simp only [SortedRangeMap.set]
        rw [if_pos ((assertRange_iff _).mpr hv)]
      rw [hset]
      simp only [Option.bind_eq_bind, Option.some_bind]
      rw [ih]
      simp [hv]
    · have hset : m0.set en.1 en.2 = none := by
        simp only [SortedRangeMap.set]
        rw [if_neg (fun hc => hv ((assertRange_iff _).mp hc))]
      rw [hset]
      simp only [Option.bind_eq_bind, Option.none_bind]
      refine iff_of_true trivial ?_
      intro hall
      exact hv (hall en (List.mem_cons_self _ _))

/-- The set add method fails exactly on invalid ranges. -/
theorem add_none_iff (s : SortedRangeSet) (r : SRange) :
    s.add r = none ↔ ¬ ValidRange r := by
  simp only [SortedRangeSet.add, Option.map_eq_none', SortedRangeMap.set]
  by_cases hv : assertRange r = true
  · rw [if_pos hv]
    exact iff_of_false (by simp) (fun h => h ((assertRange_iff _).mp hv))
  · rw [if_neg hv]
    exact iff_of_true rfl (fun h => hv ((assertRange_iff _).mpr h))

/-- The invariant and value constancy survive the whole add-fold of the
ranges constructor. -/
theorem foldlM_add_inv :
    ∀ (ranges : List SRange) (s0 s : SortedRangeSet),
      Inv s0.map.entries →
      (∀ en ∈ s0.map.entries, en.2 = SortedRangeSet.placeholder) →
      ranges.foldlM (fun s r => s.add r) s0 = some s →
      Inv s.map.entries ∧
        ∀ en ∈ s.map.entries, en.2 = SortedRangeSet.placeholder := by
  intro ranges
  induction ranges with
  | nil =>
    intro s0 s h0 hc0 hfold
    simp only [List.foldlM_nil] at hfold
    obtain rfl := Option.some.inj hfold
    exact ⟨h0, hc0⟩
  | cons r t ih =>
    intro s0 s h0 hc0 hfold
    rw [List.foldlM_cons] at hfold
    cases hadd : s0.add r with
    | none =>
      rw [hadd] at hfold
      cases hfold
    | some s1 =>
      rw [hadd] at hfold
      simp only [Option.bind_eq_bind, Option.some_bind] at hfold
      simp only [SortedRangeSet.add, SortedRangeMap.set] at hadd
      by_cases hv : assertRange r = true
      · rw [if_pos hv] at hadd
        simp only [Option.map_some'] at hadd
        obtain rfl := Option.some.inj hadd
        have hvr : ValidRange r := (assertRange_iff _).mp hv
        exact ih _ s ((setEntries_spec h0 hvr.2.2 _).1)
          (setEntries_values_const hc0) hfold
      · rw [if_neg hv] at hadd
        cases hadd

/-- The add-fold of the ranges constructor fails exactly when some range is
invalid. -/
theorem foldlM_add_none :
    ∀ (ranges : List SRange) (s0 : SortedRangeSet),
      ranges.foldlM (fun s r => s.add r) s0 = none ↔
        ¬ ∀ r ∈ ranges, ValidRange r := by
  intro ranges
  induction ranges with
  | nil =>
    intro s0
    simp [List.foldlM_nil]
  | cons r t ih =>
    intro s0
    rw [List.foldlM_cons]
    by_cases hv : ValidRange r
    · cases hadd : s0.add r with
      | none => exact absurd ((add_none_iff s0 r).mp hadd) (not_not_intro hv)
      | some s1 =>
        simp only [Option.bind_eq_bind, Option.some_bind]
        rw [ih]
        simp [hv]
    · rw [(add_none_iff s0 r).mpr hv]
      simp only [Option.bind_eq_bind, Option.none_bind]
      refine iff_of_true trivial ?_
      intro hall
      exact hv (hall r (List.mem_cons_self _ _))

/-- One step of the set against the map-with-placeholder model. -/
theorem applySetOp_sim (s : SortedRangeSet) (op : SetOp) :
    (applySetOp s op).map SortedRangeSet.map = applyMapOp s.map op := by
  cases op with
  | add r =>
    simp only [applySetOp, applyMapOp, SortedRangeSet.add, Option.map_map]
    cases s.map.set r SortedRangeSet.placeholder <;> rfl
  | del r =>
    simp only [applySetOp, applyMapOp, SortedRangeSet.delete, Option.map_map]
    cases s.map.delete r <;> rfl
  | clear => rfl
  | slice r =>
    simp only [applySetOp, applyMapOp, SortedRangeSet.slice, Option.map_map]
    cases s.map.slice r <;> rfl

/-- The set simulates the map-with-placeholder model over whole operation
sequences. -/
theorem runOps_sim :
    ∀ (ops : List SetOp) (s : SortedRangeSet),
      (runSetOps s ops).map SortedRangeSet.map = runMapOps s.map ops := by
  intro ops
  induction ops with
  | nil => intro s; rfl
  | cons op t ih =>
    intro s
    simp only [runSetOps, runMapOps, List.foldlM_cons]
    cases hop : applySetOp s op with
    | none =>
      have := applySetOp_sim s op
      rw [hop] at this
      simp only [Option.map_none'] at this
      rw [← this]
      rfl
    | some s1 =>
      have := applySetOp_sim s op
      rw [hop] at this
      simp only [Option.map_some'] at this
      rw [← this]
      simp only [Option.bind_eq_bind, Option.some_bind]
      exact ih s1

end RangeList

end SortedRanges

open SortedRanges SortedRanges.RangeList

/-- The sample entries satisfy the invariant. -/
theorem exEntries_inv : Inv exEntries :=
  ⟨by decide, List.chain'_pair.mpr (by decide)⟩

/-- The sample set entries satisfy the invariant. -/
theorem exSet_inv : Inv exSet.map.entries :=
  ⟨by decide, List.chain'_pair.mpr (by decide)⟩

/-- C1: the class invariant — every range well formed, consecutive entries
sorted and disjoint, and no adjacent equal-valued neighbors — holds for the
empty structure and after every operation (set, delete, slice, construction
from entries or ranges); for the set, consecutive ranges are never adjacent
at all. -/
theorem claim_C1 (V : Type) [DecidableEq V] :
    Inv ([] : List (REntry V)) ∧
    (∀ (l : List (REntry V)) (r : SRange) (v : V), Inv l → ValidRange r →
      Inv (setEntries l r v)) ∧
    (∀ (l : List (REntry V)) (r : SRange), Inv l → ValidRange r →
      Inv (delEntries l r).2) ∧
    (∀ (l : List (REntry V)) (r : SRange), Inv l → ValidRange r →
      Inv (sliceEntries l r)) ∧
    (∀ (entries : List (REntry V)) (m : SortedRangeMap V),
      SortedRangeMap.ofEntries entries = some m → Inv m.entries) ∧
    (∀ (ranges : List SRange) (s : SortedRangeSet),
      SortedRangeSet.ofRanges ranges = some s → Inv s.map.entries ∧
        s.map.entries.Chain' fun x y => x.1.2 + 1 < y.1.1) := by
  refine ⟨Inv_nil, ?_, ?_, ?_, ?_, ?_⟩
  · exact fun l r v hI hr => (setEntries_spec hI hr.2.2 v).1
  · exact fun l r hI hr => (delEntries_spec hI hr.2.2).1
  · exact fun l r hI hr => (sliceEntries_spec hI hr.2.2).1
  · exact fun entries m h => foldlM_set_inv entries ⟨[]⟩ m Inv_nil h
  · intro ranges s h
    have hres := foldlM_add_inv ranges ⟨⟨[]⟩⟩ s Inv_nil
      (fun en hen => absurd hen (List.not_mem_nil en)) h
    exact ⟨hres.1, Inv_const_gap hres.1 hres.2⟩

/-- Witness for C1 at concrete inputs. -/
theorem claim_C1_witness :
    Inv exEntries ∧ ValidRange (4, 4) ∧ ValidRange (2, 6) ∧
    Inv (setEntries exEntries (4, 4) 7) ∧
    Inv (delEntries exEntries (2, 6)).2 ∧
    Inv (sliceEntries exEntries (2, 6)) :=
  ⟨exEntries_inv, by decide, by decide,
   (claim_C1 Nat).2.1 exEntries (4, 4) 7 exEntries_inv (by decide),
   (claim_C1 Nat).2.2.1 exEntries (2, 6) exEntries_inv (by decide),
   (claim_C1 Nat).2.2.2.1 exEntries (2, 6) exEntries_inv (by decide)⟩

/-- C2: set associates every key of a valid range with the value — the
covering entry returned by get spans the whole range — and keys outside the
range keep their previous association. -/
theorem claim_C2 (V : Type) [DecidableEq V] (m : SortedRangeMap V) (r : SRange)
    (v : V) (hI : Inv m.entries) (hr : ValidRange r) :
    ∃ m', m.set r v = some m' ∧ Inv m'.entries ∧
      (∃ cr : SRange, cr.1 ≤ r.1 ∧ r.2 ≤ cr.2 ∧
        ∀ k : Int, r.1 ≤ k → k ≤ r.2 → m'.get k = some (cr, v)) ∧
      (∀ k : Int, r.1 ≤ k → k ≤ r.2 → lookup m'.entries k = some v) ∧
      (∀ k : Int, k < r.1 ∨ r.2 < k →
        lookup m'.entries k = lookup m.entries k) := by
  obtain ⟨hI', ⟨en, hmem, h1, h2, hval⟩, hpres⟩ := setEntries_spec hI hr.2.2 v
  refine ⟨⟨setEntries m.entries r v⟩, ?_, hI', ?_, ?_, hpres⟩
  · simp only [SortedRangeMap.set]
    rw [if_pos ((assertRange_iff r).mpr hr)]
  · refine ⟨en.1, h1, h2, ?_⟩
    intro k hk1 hk2
    have hc : covers en.1 k := ⟨by omega, by omega⟩
    have hget : SortedRangeMap.get ⟨setEntries m.entries r v⟩ k = some en :=
      get_of_covers hI' hmem hc
    rw [hget]
    exact congrArg some (by rw [← hval])
  · intro k hk1 hk2
    exact (lookup_eq_some_iff hI').mpr ⟨en, hmem, ⟨by omega, by omega⟩, hval⟩

/-- Witness for C2 at concrete inputs. -/
theorem claim_C2_witness :
    Inv exMap.entries ∧ ValidRange (4, 5) ∧
    ∃ m', exMap.set (4, 5) 7 = some m' ∧ Inv m'.entries ∧
      (∃ cr : SRange, cr.1 ≤ 4 ∧ 5 ≤ cr.2 ∧
        ∀ k : Int, 4 ≤ k → k ≤ 5 → m'.get k = some (cr, 7)) ∧
      (∀ k : Int, 4 ≤ k → k ≤ 5 → lookup m'.entries k = some 7) ∧
      (∀ k : Int, k < 4 ∨ 5 < k →
        lookup m'.entries k = lookup exMap.entries k) :=
  ⟨exEntries_inv, by decide, claim_C2 Nat exMap (4, 5) 7 exEntries_inv (by decide)⟩

/-- C3: delete removes exactly the keys of a valid range, reports whether
the range intersected anything, leaves the entries untouched when it
reports false, and hasAny on the deleted range is false afterwards. -/
theorem claim_C3 (V : Type) (m : SortedRangeMap V) (r : SRange)
    (hI : Inv m.entries) (hr : ValidRange r) :
    ∃ b m', m.delete r = some (b, m') ∧ Inv m'.entries ∧
      (∀ k : Int, r.1 ≤ k → k ≤ r.2 → ¬ memK m'.entries k) ∧
      (∀ k : Int, k < r.1 ∨ r.2 < k →
        lookup m'.entries k = lookup m.entries k) ∧
      (b = true ↔ ∃ en ∈ m.entries, intersects en.1 r) ∧
      (b = false → m'.entries = m.entries) ∧
      m'.hasAny r = some false := by
  obtain ⟨hI', hclear, hpres, hbool⟩ := delEntries_spec hI hr.2.2
  refine ⟨(delEntries m.entries r).1, ⟨(delEntries m.entries r).2⟩, ?_, hI',
    hclear, hpres, hbool, fun hb => delEntries_eq_of_false hb, ?_⟩
  · simp only [SortedRangeMap.delete]
    rw [if_pos ((assertRange_iff r).mpr hr)]
  · simp only [SortedRangeMap.hasAny]
    rw [if_pos ((assertRange_iff r).mpr hr)]
    congr 1
    cases hB : hasAnyEntries (delEntries m.entries r).2 r
    · rfl
    · obtain ⟨k, hk1, hk2, hmk⟩ := (hasAnyEntries_iff hI' hr.2.2).mp hB
      exact absurd hmk (hclear k hk1 hk2)

/-- Witness for C3 at concrete inputs. -/
theorem claim_C3_witness :
    Inv exMap.entries ∧ ValidRange (2, 6) ∧
    ∃ b m', exMap.delete (2, 6) = some (b, m') ∧ Inv m'.entries ∧
      (∀ k : Int, 2 ≤ k → k ≤ 6 → ¬ memK m'.entries k) ∧
      (∀ k : Int, k < 2 ∨ 6 < k →
        lookup m'.entries k = lookup exMap.entries k) ∧
      (b = true ↔ ∃ en ∈ exMap.entries, intersects en.1 (2, 6)) ∧
      (b = false → m'.entries = exMap.entries) ∧
      m'.hasAny (2, 6) = some false :=
  ⟨exEntries_inv, by decide, claim_C3 Nat exMap (2, 6) exEntries_inv (by decide)⟩

/-- C4: every range-accepting entry point of both structures fails exactly
when the range has a non-safe endpoint or start exceeding end; on valid
ranges it never fails, and a failing call produces no new state. -/
theorem claim_C4 (V : Type) [DecidableEq V] :
    (∀ r : SRange, assertRange r = false ↔
      (isSafeInteger r.1 = false ∨ isSafeInteger r.2 = false ∨ r.2 < r.1)) ∧
    (∀ (m : SortedRangeMap V) (r : SRange) (v : V),
      m.set r v = none ↔ ¬ ValidRange r) ∧
    (∀ (m : SortedRangeMap V) (r : SRange), m.delete r = none ↔ ¬ ValidRange r) ∧
    (∀ (m : SortedRangeMap V) (r : SRange), m.slice r = none ↔ ¬ ValidRange r) ∧
    (∀ (m : SortedRangeMap V) (r : SRange), m.hasAll r = none ↔ ¬ ValidRange r) ∧
    (∀ (m : SortedRangeMap V) (r : SRange), m.hasAny r = none ↔ ¬ ValidRange r) ∧
    (∀ (s : SortedRangeSet) (r : SRange), s.add r = none ↔ ¬ ValidRange r) ∧
    (∀ (s : SortedRangeSet) (r : SRange), s.delete r = none ↔ ¬ ValidRange r) ∧
    (∀ (s : SortedRangeSet) (r : SRange), s.slice r = none ↔ ¬ ValidRange r) ∧
    (∀ (s : SortedRangeSet) (r : SRange), s.hasAll r = none ↔ ¬ ValidRange r) ∧
    (∀ (s : SortedRangeSet) (r : SRange), s.hasAny r = none ↔ ¬ ValidRange r) ∧
    (∀ entries : List (REntry V), SortedRangeMap.ofEntries entries = none ↔
      ¬ ∀ en ∈ entries, ValidRange en.1) ∧
    (∀ ranges : List SRange, SortedRangeSet.ofRanges ranges = none ↔
      ¬ ∀ r ∈ ranges, ValidRange r) := by
  have hnone : ∀ (r : SRange) (α : Type) (x : α),
      ((if assertRange r then some x else none) = none ↔ ¬ ValidRange r) := by
    intro r α x
    by_cases hv : assertRange r = true
    · rw [if_pos hv]
      exact iff_of_false (by simp) (not_not_intro ((assertRange_iff r).mp hv))
    · rw [if_neg hv]
      exact iff_of_true rfl (fun h => hv ((assertRange_iff r).mpr h))
  refine ⟨?_, ?_, ?_, ?_, ?_, ?_, ?_, ?_, ?_, ?_, ?_, ?_, ?_⟩
  · intro r
    rw [Bool.eq_false_iff, ne_eq, assertRange_iff]
    simp only [ValidRange, isSafeInteger, decide_eq_false_iff_not,
      decide_eq_true_eq]
    omega
  · exact fun m r v => hnone r _ _
  · exact fun m r => hnone r _ _
  · exact fun m r => hnone r _ _
  · exact fun m r => hnone r _ _
  · exact fun m r => hnone r _ _
  · exact fun s r => add_none_iff s r
  · intro s r
    simp only [SortedRangeSet.delete, Option.map_eq_none']
    exact hnone r _ _
  · intro s r
    simp only [SortedRangeSet.slice, Option.map_eq_none']
    exact hnone r _ _
  · exact fun s r => hnone r _ _
  · exact fun s r => hnone r _ _
  · exact fun entries => foldlM_set_none entries ⟨[]⟩
  · exact fun ranges => foldlM_add_none ranges ⟨⟨[]⟩⟩

/-- Witness for C4 at concrete inputs. -/
theorem claim_C4_witness :
    (exMap.set (1, 0) 5 = none ↔ ¬ ValidRange ((1 : Int), (0 : Int))) ∧
    exMap.set (1, 0) 5 = none :=
  ⟨(claim_C4 Nat).2.1 exMap (1, 0) 5,
   ((claim_C4 Nat).2.1 exMap (1, 0) 5).mpr (by decide)⟩

/-- C5: indexOf returns the index of the covering entry when the key is
covered, else the bitwise complement of the sorted insertion index; on the
empty structure it returns -1. -/
theorem claim_C5 (V : Type) (l : List (REntry V)) (k : Int) (hI : Inv l) :
    (0 ≤ indexOf l k ↔ memK l k) ∧
    (0 ≤ indexOf l k → ∃ en : REntry V,
      l[(indexOf l k).toNat]? = some en ∧ covers en.1 k) ∧
    (indexOf l k < 0 →
      indexOf l k = jsNot (insPos l k) ∧ (∀ en ∈ l, ¬ covers en.1 k) ∧
      (∀ i : Nat, ∀ en : REntry V, l[i]? = some en → i < insPos l k →
        en.1.2 < k) ∧
      (∀ i : Nat, ∀ en : REntry V, l[i]? = some en → insPos l k ≤ i →
        k < en.1.1)) ∧
    indexOf ([] : List (REntry V)) k = -1 := by
  refine ⟨indexOf_nonneg_iff hI k, fun h => indexOf_found hI h, ?_, ?_⟩
  · intro h
    obtain ⟨heq, hnc⟩ := indexOf_neg hI h
    refine ⟨heq, hnc, fun i en hen hi => (insPos_split hI k).1 i hi en hen, ?_⟩
    intro i en hen hi
    have h2 := (insPos_split hI k).2 i hi en hen
    have hcn : ¬ (en.1.1 ≤ k ∧ k ≤ en.1.2) := hnc en (List.getElem?_mem hen)
    omega
  · have h0 : indexOf ([] : List (REntry V)) k = jsNot 0 := by
      unfold indexOf
      exact indexOfAux_stop (by norm_num [List.length_nil])
    rw [h0]
    decide

/-- Witness for C5 at concrete inputs. -/
theorem claim_C5_witness :
    Inv exEntries ∧ indexOf ([] : List (REntry Nat)) 4 = -1 :=
  ⟨exEntries_inv, (claim_C5 Nat exEntries 4 exEntries_inv).2.2.2⟩

/-- C6: hasAll decides whether every key of a valid range is covered, on
both the map and the set. -/
theorem claim_C6 (V : Type) (m : SortedRangeMap V) (s : SortedRangeSet)
    (r : SRange) (hIm : Inv m.entries) (hIs : Inv s.map.entries)
    (hr : ValidRange r) :
    (∃ bm, m.hasAll r = some bm ∧
      (bm = true ↔ ∀ k : Int, r.1 ≤ k → k ≤ r.2 → memK m.entries k)) ∧
    (∃ bs, s.hasAll r = some bs ∧
      (bs = true ↔ ∀ k : Int, r.1 ≤ k → k ≤ r.2 → memK s.map.entries k)) := by
  constructor
  · refine ⟨hasAllEntries m.entries r, ?_, hasAllEntries_iff hIm hr.2.2⟩
    simp only [SortedRangeMap.hasAll]
    rw [if_pos ((assertRange_iff r).mpr hr)]
  · refine ⟨hasAllEntries s.map.entries r, ?_, hasAllEntries_iff hIs hr.2.2⟩
    simp only [SortedRangeSet.hasAll, SortedRangeMap.hasAll]
    rw [if_pos ((assertRange_iff r).mpr hr)]

/-- Witness for C6 at concrete inputs. -/
theorem claim_C6_witness :
    Inv exMap.entries ∧ Inv exSet.map.entries ∧ ValidRange (1, 2) ∧
    ∃ bm, exMap.hasAll (1, 2) = some bm ∧
      (bm = true ↔ ∀ k : Int, 1 ≤ k → k ≤ 2 → memK exMap.entries k) :=
  ⟨exEntries_inv, exSet_inv, by decide,
   (claim_C6 Nat exMap exSet (1, 2) exEntries_inv exSet_inv (by decide)).1⟩

/-- C7: hasAny decides whether at least one key of a valid range is
covered, on both the map and the set. -/
theorem claim_C7 (V : Type) (m : SortedRangeMap V) (s : SortedRangeSet)
    (r : SRange) (hIm : Inv m.entries) (hIs : Inv s.map.entries)
    (hr : ValidRange r) :
    (∃ bm, m.hasAny r = some bm ∧
      (bm = true ↔ ∃ k : Int, r.1 ≤ k ∧ k ≤ r.2 ∧ memK m.entries k)) ∧
    (∃ bs, s.hasAny r = some bs ∧
      (bs = true ↔ ∃ k : Int, r.1 ≤ k ∧ k ≤ r.2 ∧ memK s.map.entries k)) := by
  constructor
  · refine ⟨hasAnyEntries m.entries r, ?_, hasAnyEntries_iff hIm hr.2.2⟩
    simp only [SortedRangeMap.hasAny]
    rw [if_pos ((assertRange_iff r).mpr hr)]
  · refine ⟨hasAnyEntries s.map.entries r, ?_, hasAnyEntries_iff hIs hr.2.2⟩
    simp only [SortedRangeSet.hasAny, SortedRangeMap.hasAny]
    rw [if_pos ((assertRange_iff r).mpr hr)]

/-- Witness for C7 at concrete inputs. -/
theorem claim_C7_witness :
    Inv exMap.entries ∧ Inv exSet.map.entries ∧ ValidRange (3, 5) ∧
    ∃ bm, exMap.hasAny (3, 5) = some bm ∧
      (bm = true ↔ ∃ k : Int, 3 ≤ k ∧ k ≤ 5 ∧ memK exMap.entries k) :=
  ⟨exEntries_inv, exSet_inv, by decide,
   (claim_C7 Nat exMap exSet (3, 5) exEntries_inv exSet_inv (by decide)).1⟩

/-- C8: slice returns a new map holding exactly the in-range portions of
the intersecting entries with values preserved — an empty map when the
range intersects nothing — and the original map is untouched. -/
theorem claim_C8 (V : Type) (m : SortedRangeMap V) (r : SRange)
    (hI : Inv m.entries) (hr : ValidRange r) :
    ∃ m', m.slice r = some m' ∧ Inv m'.entries ∧
      (∀ k : Int, lookup m'.entries k =
        if r.1 ≤ k ∧ k ≤ r.2 then lookup m.entries k else none) ∧
      (m'.entries = [] ↔ ∀ en ∈ m.entries, ¬ intersects en.1 r) ∧
      (∀ en ∈ m'.entries, r.1 ≤ en.1.1 ∧ en.1.2 ≤ r.2 ∧
        ∃ en0 ∈ m.entries, intersects en0.1 r ∧ en.2 = en0.2 ∧
          en0.1.1 ≤ en.1.1 ∧ en.1.2 ≤ en0.1.2) := by
  obtain ⟨h1, h2, h3, h4⟩ := sliceEntries_spec hI hr.2.2
  refine ⟨⟨sliceEntries m.entries r⟩, ?_, h1, h2, h3, h4⟩
  simp only [SortedRangeMap.slice]
  rw [if_pos ((assertRange_iff r).mpr hr)]

/-- Witness for C8 at concrete inputs. -/
theorem claim_C8_witness :
    Inv exMap.entries ∧ ValidRange (2, 6) ∧
    ∃ m', exMap.slice (2, 6) = some m' ∧ Inv m'.entries ∧
      (∀ k : Int, lookup m'.entries k =
        if 2 ≤ k ∧ k ≤ 6 then lookup exMap.entries k else none) ∧
      (m'.entries = [] ↔ ∀ en ∈ exMap.entries, ¬ intersects en.1 (2, 6)) ∧
      (∀ en ∈ m'.entries, 2 ≤ en.1.1 ∧ en.1.2 ≤ 6 ∧
        ∃ en0 ∈ exMap.entries, intersects en0.1 (2, 6) ∧ en.2 = en0.2 ∧
          en0.1.1 ≤ en.1.1 ∧ en.1.2 ≤ en0.1.2) :=
  ⟨exEntries_inv, by decide, claim_C8 Nat exMap (2, 6) exEntries_inv (by decide)⟩

/-- C9: a SortedRangeSet is the delegate SortedRangeMap used with the
constant placeholder value: over every operation sequence the underlying
map evolves exactly as the model map, and every observation forwards to the
map with the value component stripped. -/
theorem claim_C9 (ops : List SetOp) (s : SortedRangeSet) :
    (runSetOps s ops).map SortedRangeSet.map = runMapOps s.map ops ∧
    (∀ s' : SortedRangeSet, runSetOps s ops = some s' →
      (∀ k : Int, s'.has k = s'.map.has k ∧
        s'.get k = (s'.map.get k).map Prod.fst ∧
        s'.indexOf k = s'.map.indexOf k) ∧
      (∀ i : Int, s'.atIndex i = (s'.map.atIndex i).map Prod.fst) ∧
      (∀ r : SRange, s'.hasAll r = s'.map.hasAll r ∧
        s'.hasAny r = s'.map.hasAny r ∧
        s'.add r = (s'.map.set r SortedRangeSet.placeholder).map
          SortedRangeSet.mk ∧
        (s'.delete r).map Prod.fst = (s'.map.delete r).map Prod.fst ∧
        (s'.slice r).map SortedRangeSet.map = s'.map.slice r) ∧
      s'.clear.map = s'.map.clear ∧ s'.size = s'.map.size ∧
      s'.rangesList = s'.map.rangesList ∧ s'.keysList = s'.map.keysList) := by
  refine ⟨runOps_sim ops s, ?_⟩
  intro s' _
  refine ⟨fun k => ⟨rfl, rfl, rfl⟩, fun i => rfl,
    fun r => ⟨rfl, rfl, rfl, ?_, ?_⟩, rfl, rfl, rfl, rfl⟩
  · simp only [SortedRangeSet.delete, Option.map_map]
    cases s'.map.delete r <;> rfl
  · simp only [SortedRangeSet.slice, Option.map_map]
    cases s'.map.slice r <;> rfl

/-- Witness for C9 at concrete inputs. -/
theorem claim_C9_witness :
    (runSetOps exSet [SetOp.add (4, 5)]).map SortedRangeSet.map =
      runMapOps exSet.map [SetOp.add (4, 5)] :=
  (claim_C9 [SetOp.add (4, 5)] exSet).1

/-- C10: under the invariant, for every valid range the private indicesOf
either reports no intersection or returns an in-bounds inclusive index pair
delimiting exactly the intersecting entries, so the indexed accesses that
delete and slice perform at those indices all succeed. -/
theorem claim_C10 (V : Type) (l : List (REntry V)) (r : SRange) (hI : Inv l)
    (hr : ValidRange r) :
    (indicesOf l r = none ∧ ∀ en ∈ l, ¬ intersects en.1 r) ∨
    (∃ a b : Nat, indicesOf l r = some ((a : Int), (b : Int)) ∧ a ≤ b ∧
      b < l.length ∧
      (∃ ea : REntry V, l[a]? = some ea ∧ intersects ea.1 r) ∧
      (∃ eb : REntry V, l[b]? = some eb ∧ intersects eb.1 r) ∧
      ∀ i : Nat, ∀ en : REntry V, l[i]? = some en →
        (intersects en.1 r ↔ a ≤ i ∧ i ≤ b)) := by
  rcases indicesOf_spec hI hr.2.2 with h | ⟨a, b, hAB, hab, hblen, hwin⟩
  · exact Or.inl h
  · refine Or.inr ⟨a, b, hAB, hab, hblen, ?_, ?_, hwin⟩
    · obtain ⟨ea, hea⟩ : ∃ ea, l[a]? = some ea :=
        ⟨l[a], List.getElem?_eq_getElem (by omega)⟩
      exact ⟨ea, hea, (hwin a ea hea).mpr ⟨le_rfl, hab⟩⟩
    · obtain ⟨eb, heb⟩ : ∃ eb, l[b]? = some eb :=
        ⟨l[b], List.getElem?_eq_getElem hblen⟩
      exact ⟨eb, heb, (hwin b eb heb).mpr ⟨hab, le_rfl⟩⟩

/-- Witness for C10 at concrete inputs. -/
theorem claim_C10_witness :
    Inv exEntries ∧ ValidRange (2, 6) ∧
    ((indicesOf exEntries (2, 6) = none ∧
        ∀ en ∈ exEntries, ¬ intersects en.1 (2, 6)) ∨
     (∃ a b : Nat, indicesOf exEntries (2, 6) = some ((a : Int), (b : Int)) ∧
        a ≤ b ∧ b < exEntries.length ∧
        (∃ ea : REntry Nat, exEntries[a]? = some ea ∧
          intersects ea.1 (2, 6)) ∧
        (∃ eb : REntry Nat, exEntries[b]? = some eb ∧
          intersects eb.1 (2, 6)) ∧
        ∀ i : Nat, ∀ en : REntry Nat, exEntries[i]? = some en →
          (intersects en.1 (2, 6) ↔ a ≤ i ∧ i ≤ b))) :=
  ⟨exEntries_inv, by decide, claim_C10 Nat exEntries (2, 6) exEntries_inv (by decide)⟩
